import Mathlib

/-!
# A shallow embedding of the Verona runtime behaviour scheduler

This file embeds, in Lean, the parts of the Verona runtime (`verona-rt`)
that its specification makes claims about:

* `ReadRefCount` (`src/rt/sched/cown.h`, lines 48-115): the packed
  reader-count / writer-pending word of a cown.
* The `Slot` status word and its contended link installers
  (`src/rt/sched/behaviourcore.h`, lines 79-326).
* `BehaviourCore::resolve` and the `exec_count_down` counter
  (`behaviourcore.h`, lines 456-514).
* `BehaviourCore::acquire_with_transfer` (`behaviourcore.h`, lines 527-552).
* The four phases of `BehaviourCore::schedule_many`
  (`behaviourcore.h`, lines 762-1226).
* The per-cown reference-count ledger implicit in `schedule_many`,
  `Slot::release` and `Slot::drop_read`.
* `Core::token_work` (`core.h`), `SchedulerThread::schedule_fifo` /
  `get_work` (`schedulerthread.h`) and `WorkStealingQueue`
  (`workstealingqueue.h`).

The embedding is sequential: each C++ function is translated to a pure
Lean function on explicit state; atomic read-modify-write operations
become ordinary state updates, faithful to the uncontended execution of
the source.  Machine words (`uintptr_t`, `size_t`) are modelled as `Nat`;
where the source can only wrap around on inputs that the surrounding
runtime excludes, the theorems establish that no wrap occurs.
-/

namespace Verona

/-! ## ReadRefCount (`src/rt/sched/cown.h`, lines 48-115)

The word holds `2*n + w` where `n` is the number of active readers and
`w ∈ {0,1}` is the writer-pending bit. -/

inductive RRStatus where
  | lastReader
  | lastReaderWaitingWriter
  | notLast
deriving DecidableEq, Repr

/-- `ReadRefCount::add_read` (cown.h lines 67-72): fetch-add of
`readers * 2`; returns `true` iff the old value was `0`
("I am the first reader").  Result: (new word, first-reader flag). -/
def addRead (count : Nat) (readers : Nat) : Nat × Bool :=
  (count + readers * 2, count == 0)

/-- `ReadRefCount::release_read` (cown.h lines 76-89): fetch-sub of 2 on
the old value `old`; `old > 3` yields `NOT_LAST`, `old = 2` yields
`LAST_READER` (word is now 0), otherwise (the `old = 3` case asserted in
the source) the word is stored to `0` inside `release_read` itself and
`LAST_READER_WAITING_WRITER` is returned.
Result: (new word, status). -/
def releaseRead (count : Nat) : Nat × RRStatus :=
  if count > 3 then (count - 2, RRStatus.notLast)
  else if count = 2 then (0, RRStatus.lastReader)
  else (0, RRStatus.lastReaderWaitingWriter)

/-- `ReadRefCount::try_write` (cown.h lines 94-109): succeed immediately
when the word is `0`; otherwise fetch-add 1 (set the writer-pending bit)
and re-check; sequentially the re-check always fails, so the word keeps
the bit and the writer must wait.  Result: (new word, can-write flag). -/
def tryWrite (count : Nat) : Nat × Bool :=
  if count = 0 then (count, true)
  else if count ≠ 0 then (count + 1, false)
  else (0, true)

/-! ## Slot status word (`src/rt/sched/behaviourcore.h`, lines 79-95)

Word-level model of the contended successor installers.  Slot and
behaviour addresses are 4-byte aligned non-null pointers, so the two low
bits of a pointer are free for tags. -/

def STATUS_WAIT : Nat := 0
def STATUS_READY : Nat := 1
def STATUS_READAVAILABLE : Nat := 2
def STATUS_CHAIN_CLOSED : Nat := 3
def STATUS_READ_FLAG : Nat := 1

/-- `Slot::set_next_slot_reader_contended` (behaviourcore.h lines
233-263) acting on the predecessor's status word: CAS from `READY` to
the tagged pointer `n | STATUS_READ_FLAG`; on failure the status is
overwritten with `CHAIN_CLOSED`.  Result: (new status word, success). -/
def setNextSlotReaderContendedW (status n : Nat) : Nat × Bool :=
  if status = STATUS_READY then (n ||| STATUS_READ_FLAG, true)
  else (STATUS_CHAIN_CLOSED, false)

/-- `Slot::set_next_slot_writer_contended` (behaviourcore.h lines
297-326): on a writer predecessor the store is unconditional; on a
reader predecessor, CAS from `READY` to the untagged behaviour pointer
`b`, overwriting with `CHAIN_CLOSED` on failure.
Result: (new status word, success). -/
def setNextSlotWriterContendedW (status : Nat) (prevIsReadOnly : Bool) (b : Nat) :
    Nat × Bool :=
  if !prevIsReadOnly then (b, true)
  else if status = STATUS_READY then (b, true)
  else (STATUS_CHAIN_CLOSED, false)

/-! ## `BehaviourCore::resolve` and `exec_count_down`
(`src/rt/sched/behaviourcore.h`, lines 456-514) -/

/-- The `BehaviourCore(count)` constructor (behaviourcore.h line 470)
initialises `exec_count_down` to `count + 1`. -/
def mkExecCountDown (count : Nat) : Nat := count + 1

/-- One call of `BehaviourCore::resolve(n)` (behaviourcore.h lines
501-514) on the current `exec_count_down` value `ecd`: schedule (push the
`Work`) iff the remaining count equals `n`, in which case the decrement
is elided; otherwise fetch-sub `n`.  Result: (new `exec_count_down`,
pushed flag).  (The source counter is a `size_t`; the theorems below show
the subtraction never underflows in legal call sequences, so truncated
subtraction agrees with the machine.) -/
def resolveStep (ecd n : Nat) : Nat × Bool :=
  if ecd = n then (ecd, true) else (ecd - n, false)

/-- Running a sequence of `resolve` calls, recording for each call the
`exec_count_down` value before the call, the argument, and whether the
behaviour's `Work` was pushed to the scheduler. -/
def resolveRun (ecd : Nat) : List Nat → List (Nat × Nat × Bool)
  | [] => []
  | n :: rest => (ecd, n, (resolveStep ecd n).2) :: resolveRun (resolveStep ecd n).1 rest

/-- Final `exec_count_down` after a sequence of `resolve` calls. -/
def resolveRunState (ecd : Nat) : List Nat → Nat
  | [] => ecd
  | n :: rest => resolveRunState (resolveStep ecd n).1 rest

/-! ## `BehaviourCore::acquire_with_transfer`
(`src/rt/sched/behaviourcore.h`, lines 527-552) -/

/-- `acquire_with_transfer(cown, transfer, required)`: if more references
were transferred than required, release the surplus; if fewer, acquire
the difference.  Result: (number of `Cown::acquire` calls, number of
`Cown::release` calls). -/
def acquireWithTransfer (transfer required : Nat) : Nat × Nat :=
  if transfer = required then (0, 0)
  else if transfer > required then (0, transfer - required)
  else (required - transfer, 0)

/-! ## The per-core work-stealing queue
(`src/rt/sched/workstealingqueue.h`, instantiated with `N = 4` in
`core.h`)

The queue is an array of 4 MPMC queues with round-robin enqueue and
dequeue indices (`WrapIndex<4>`, `src/rt/ds/wrapindex.h`).  Each MPMC
queue (`mpmcq.h`) is a FIFO; in this single-consumer sequential model a
queue is a list with enqueue at the back and dequeue at the front (the
spurious-failure window of the concurrent queue cannot occur
sequentially).  Work items are identified by `Nat` ids. -/

structure WSQ where
  enqIdx : Nat
  deqIdx : Nat
  queues : Fin 4 → List Nat

def emptyWSQ : WSQ := ⟨0, 0, fun _ => []⟩

/-- `MPMCQ::dequeue` in the sequential model: pop the front. -/
def mpmcDequeue (l : List Nat) : Option Nat × List Nat :=
  match l with
  | [] => (none, [])
  | x :: xs => (some x, xs)

/-- `WorkStealingQueue::enqueue` (workstealingqueue.h lines 43-46 and
20-23): advance the enqueue index round-robin and push onto that
sub-queue. -/
def wsqEnqueue (q : WSQ) (w : Nat) : WSQ :=
  let i : Fin 4 := ⟨(q.enqIdx + 1) % 4, by omega⟩
  { q with enqIdx := i.val, queues := Function.update q.queues i (q.queues i ++ [w]) }

/-- The probe loop of `WorkStealingQueue::dequeue` (lines 56-69): try
each sub-queue once, advancing the dequeue index before each probe. -/
def wsqDequeueAux (q : WSQ) : Nat → Option Nat × WSQ
  | 0 => (none, q)
  | fuel + 1 =>
    let i : Fin 4 := ⟨(q.deqIdx + 1) % 4, by omega⟩
    let r := mpmcDequeue (q.queues i)
    let q' : WSQ := { q with deqIdx := i.val, queues := Function.update q.queues i r.2 }
    match r.1 with
    | some w => (some w, q')
    | none => wsqDequeueAux q' fuel

def wsqDequeue (q : WSQ) : Option Nat × WSQ := wsqDequeueAux q 4

/-- One operation on a work-stealing queue: `true` is an enqueue (of the
next work-item id), `false` a dequeue. -/
def wsqRun (q : WSQ) (nextId : Nat) : List Bool → WSQ × List Nat
  | [] => (q, [])
  | true :: ops => wsqRun (wsqEnqueue q (nextId + 1)) (nextId + 1) ops
  | false :: ops =>
    let r := wsqDequeue q
    let rest := wsqRun r.2 nextId ops
    (rest.1, (r.1.toList) ++ rest.2)

/-! ## The scheduler thread (`src/rt/sched/schedulerthread.h`)

`SchedulerThread::schedule_fifo` / `get_work` / `try_steal` (lines
90-183 and 236-256), modelled for one worker with one victim core
(the victim pointer alternates between the other core and our own, as
with two cores in the cyclic core list). -/

structure Worker where
  nextWork : Option Nat
  batch : Nat
  flag : Bool        -- `core->should_steal_for_fairness`
  coreQ : WSQ
  victimQ : WSQ
  victimIsCore : Bool

def BATCH_SIZE : Nat := 100

/-- `SchedulerThread::return_next_work` (lines 123-132): flush the
thread-local work item to the core's queue. -/
def returnNextWork (w : Worker) : Worker :=
  match w.nextWork with
  | none => w
  | some x => { w with coreQ := wsqEnqueue w.coreQ x, nextWork := none }

/-- `SchedulerThread::schedule_fifo` (lines 90-99): flush any previous
thread-local item to the queue and hold the new item locally. -/
def scheduleFifo (w : Worker) (x : Nat) : Worker :=
  { returnNextWork w with nextWork := some x }

/-- `SchedulerThread::try_steal` (lines 236-256): one dequeue from the
victim core (skipped when the victim is our own core), then rotate the
victim pointer. -/
def tryStealWk (w : Worker) : Option Nat × Worker :=
  if w.victimIsCore then (none, { w with victimIsCore := false })
  else
    let r := wsqDequeue w.victimQ
    (r.1, { w with victimQ := r.2, victimIsCore := true })

/-- The part of `SchedulerThread::get_work` after the fairness check
(lines 161-182): dequeue from the core's queue; if empty make a steal
attempt; fall back to the thread-local item; otherwise the worker would
enter the blocking `steal()` loop, modelled as `none`.  The third
component counts steal attempts made during the call. -/
def getWorkAfterFairness (w : Worker) (steals : Nat) : Option Nat × Worker × Nat :=
  let r := wsqDequeue w.coreQ
  let w₁ := { w with coreQ := r.2 }
  match r.1 with
  | some x => (some x, returnNextWork w₁, steals)
  | none =>
    let r₂ := tryStealWk w₁
    match r₂.1 with
    | some x => (some x, returnNextWork r₂.2, steals + 1)
    | none =>
      match r₂.2.nextWork with
      | some x => (some x, { r₂.2 with nextWork := none }, steals + 1)
      | none => (none, r₂.2, steals + 1)

/-- `SchedulerThread::get_work` (lines 135-183). -/
def getWork (w : Worker) : Option Nat × Worker × Nat :=
  if w.nextWork.isSome && (w.batch != 0) then
    (w.nextWork, { w with nextWork := none, batch := w.batch - 1 }, 0)
  else
    let w₁ := { w with batch := BATCH_SIZE }
    if w₁.flag then
      let r := tryStealWk { w₁ with flag := false }
      match r.1 with
      | some x => (some x, returnNextWork r.2, 1)
      | none => getWorkAfterFairness r.2 1
    else getWorkAfterFairness w₁ 0

/-! ## The per-core fairness token (`src/rt/sched/core.h`, lines 22-34) -/

structure CoreModel where
  shouldStealForFairness : Bool
  tokenWorkPresent : Bool     -- `token_work != nullptr`

/-- The closure body of `Core::token_work` (core.h lines 28-34): set the
fairness flag on this core; ask for deallocation only when the core is
being destroyed (`token_work == nullptr`).  The last component is the
list of work items the body enqueues on any queue: it enqueues
nothing. -/
def tokenWorkBody (c : CoreModel) : CoreModel × Bool × List Nat :=
  ({ c with shouldStealForFairness := true }, !c.tokenWorkPresent, [])

/-! ## `BehaviourCore::schedule_many`
(`src/rt/sched/behaviourcore.h`, lines 762-1226)

The sequential model of one `schedule_many` call.  Cowns are identified
by `Nat` ids (the systematic-testing comparator orders cowns by
`cown()->id()`, production builds by address; either is a linear order).
A slot of the scheduled group is identified by `(body index, slot
index)`; slots of previously scheduled, quiescent behaviours ("external"
slots) by a `Nat` id.  The `status` word's five shapes are a structured
sum instead of the tagged machine word (the word-level tag encoding is
modelled separately above). -/

inductive SlotStatus where
  | wait                     -- STATUS_WAIT
  | ready                    -- STATUS_READY
  | readAvailable            -- STATUS_READAVAILABLE
  | chainClosed              -- STATUS_CHAIN_CLOSED
  | nextReader (b s : Nat)   -- tagged pointer to the next (reader) slot
  | nextWriter (b : Nat)     -- pointer to the next (writer) behaviour
deriving DecidableEq, Repr

/-- The `Slot` fields (behaviourcore.h lines 19-430): the `_cown` word's
pointer and its two low-bit flags, the status word, and the back pointer
to the owning behaviour (set only for reader slots). -/
structure SlotData where
  cown : Option Nat     -- none after `set_cown_null`
  move : Bool           -- COWN_MOVE_FLAG
  reader : Bool         -- COWN_READER_FLAG
  status : SlotStatus
  behaviour : Option Nat
deriving DecidableEq, Repr

instance : Inhabited SlotData := ⟨⟨none, false, false, SlotStatus.wait, none⟩⟩

/-- `Slot::take_move` (behaviourcore.h lines 109-116): return 1 and clear
the flag if the slot carries a transferred RC, else return 0. -/
def takeMove (d : SlotData) : Nat × SlotData :=
  if d.move then (1, { d with move := false }) else (0, d)

/-- `Slot::set_cown_null` (lines 332-335): `_cown = 0` clears the
pointer and both flag bits. -/
def setCownNull (d : SlotData) : SlotData :=
  { d with cown := none, move := false, reader := false }

/-- A behaviour of the group: its slots and its `exec_count_down`. -/
structure BodyData where
  slots : List SlotData
  execCountDown : Nat
deriving DecidableEq, Repr

/-- One entry of the `cown_to_behaviour_slot_map` auxiliary array
(lines 881-892): behaviour index, slot index, and the slot's contents
when the array is built.  The walk below mutates only slots it has
already passed, so the construction-time copy carried here stays equal
to the slot the source rereads through its pointer. -/
structure Entry where
  bodyIdx : Nat
  slotIdx : Nat
  data : SlotData
deriving DecidableEq, Repr

def slotEntries (i j : Nat) : List SlotData → List Entry
  | [] => []
  | d :: rest => Entry.mk i j d :: slotEntries i (j + 1) rest

def buildEntriesAux (i : Nat) : List BodyData → List Entry
  | [] => []
  | b :: rest => slotEntries i 0 b.slots ++ buildEntriesAux (i + 1) rest

def buildEntries (bodies : List BodyData) : List Entry :=
  buildEntriesAux 0 bodies

/-- The sort key of the comparator (lines 919-941): cown identity first,
then behaviour index, then writers before readers. -/
def entryKey (e : Entry) : Nat × Nat × Nat :=
  (e.data.cown.getD 0, e.bodyIdx, if e.data.reader then 1 else 0)

/-- The comparator as a total preorder (the source uses the
corresponding strict order with `std::sort`). -/
def keyLE (a b : Entry) : Prop :=
  (entryKey a).1 < (entryKey b).1 ∨
    ((entryKey a).1 = (entryKey b).1 ∧
      ((entryKey a).2.1 < (entryKey b).2.1 ∨
        ((entryKey a).2.1 = (entryKey b).2.1 ∧ (entryKey a).2.2 ≤ (entryKey b).2.2)))

instance : DecidableRel keyLE := fun a b => by unfold keyLE; infer_instance

instance : IsTotal Entry keyLE := ⟨fun a b => by unfold keyLE; omega⟩

instance : IsTrans Entry keyLE := ⟨fun a b c h₁ h₂ => by
  unfold keyLE at h₁ h₂ ⊢; omega⟩

/-- The state of the chain being built by the phase-1 loop (lines
966-1064): the loop-local variables `cown`, `body`, `first_slot`,
`curr_slot`, `transfer_count`, `first_writer`,
`first_consecutive_readers_count`. -/
structure OpenChain where
  cown : Nat
  firstBodyIdx : Nat
  firstSlotId : Nat × Nat
  body : Nat
  currId : Nat × Nat
  curr : SlotData
  transfer : Nat
  firstWriter : Option Nat
  fcrc : Nat
deriving DecidableEq, Repr

/-- The `ChainInfo` helper struct (lines 949-961). -/
structure ChainInfo where
  cown : Nat
  firstBodyIdx : Nat
  firstSlotId : Nat × Nat
  lastSlotId : Nat × Nat
  transfer : Nat
  hadNoPredecessor : Bool
  refCount : Nat
  readOnlyCanRun : Bool
  firstWriter : Option Nat
  fcrc : Nat
deriving DecidableEq, Repr

def ecInc (ec : List Nat) (i : Nat) : List Nat := ec.set i (ec.getD i 0 + 1)

def ecIncRange (ec : List Nat) (start k : Nat) : List Nat :=
  (List.range k).foldl (fun acc i => ecInc acc (start + i)) ec

/-- Opening a chain at the first slot for a new cown (lines 966-987):
take the MOVE flag, record the first writer, and start the
consecutive-reader count. -/
def startChain (e : Entry) : OpenChain :=
  let t := takeMove e.data
  { cown := t.2.cown.getD 0
  , firstBodyIdx := e.bodyIdx
  , firstSlotId := (e.bodyIdx, e.slotIdx)
  , body := e.bodyIdx
  , currId := (e.bodyIdx, e.slotIdx)
  , curr := t.2
  , transfer := t.1
  , firstWriter := if t.2.reader then none else some e.bodyIdx
  , fcrc := if t.2.reader then 1 else 0 }

/-- Closing a chain (lines 1044-1063): set the behaviour pointer on a
read-only tail, record the `ChainInfo`, and `reset_status` the tail.
Returns the flushed tail slot and the chain record. -/
def closeChain (o : OpenChain) : ((Nat × Nat) × SlotData) × ChainInfo :=
  let c₁ := if o.curr.reader then { o.curr with behaviour := some o.body } else o.curr
  let c₂ := { c₁ with status := SlotStatus.wait }
  ((o.currId, c₂),
   { cown := o.cown, firstBodyIdx := o.firstBodyIdx, firstSlotId := o.firstSlotId
   , lastSlotId := o.currId, transfer := o.transfer, hadNoPredecessor := false
   , refCount := 0, readOnlyCanRun := false, firstWriter := o.firstWriter
   , fcrc := o.fcrc })

/-- The body of the inner while-loop (lines 992-1042) for one further
entry with the same cown: accumulate the MOVE flag; a slot of the same
behaviour is a duplicate (second `take_move`, `ec` increment,
`set_cown_null`); otherwise link the chain and advance `body` /
`curr_slot`.  Returns the new open chain, the new `ec`, and the slot
flushed out (the duplicate, or the previous `curr_slot`). -/
def chainExtend (o : OpenChain) (ec : List Nat) (e : Entry) :
    OpenChain × List Nat × ((Nat × Nat) × SlotData) :=
  let t₁ := takeMove e.data
  let o₁ := { o with transfer := o.transfer + t₁.1 }
  if e.bodyIdx = o₁.body then
    let t₂ := takeMove t₁.2
    let o₂ := { o₁ with transfer := o₁.transfer + t₂.1 }
    (o₂, ecInc ec e.bodyIdx, ((e.bodyIdx, e.slotIdx), setCownNull t₂.2))
  else
    let o₂ :=
      if t₁.2.reader then
        { o₁ with
          curr := { o₁.curr with status := SlotStatus.nextReader e.bodyIdx e.slotIdx }
        , fcrc := if o₁.firstWriter = none then o₁.fcrc + 1 else o₁.fcrc }
      else
        { o₁ with
          firstWriter := if o₁.firstWriter = none then some e.bodyIdx else o₁.firstWriter
        , curr := { o₁.curr with status := SlotStatus.nextWriter e.bodyIdx } }
    let flushed := if o₂.curr.reader then { o₂.curr with behaviour := some o₂.body }
                   else o₂.curr
    ({ o₂ with body := e.bodyIdx, currId := (e.bodyIdx, e.slotIdx), curr := t₁.2 },
     ec, (o₂.currId, flushed))

/-- Accumulator of the phase-1 walk over the sorted entry array. -/
structure WalkAcc where
  done : List ((Nat × Nat) × SlotData)
  oc : Option OpenChain
  chains : List ChainInfo
  ec : List Nat
deriving Repr

def walkStep (acc : WalkAcc) (e : Entry) : WalkAcc :=
  match acc.oc with
  | none => { acc with oc := some (startChain e) }
  | some o =>
    if e.data.cown = some o.cown then
      let r := chainExtend o acc.ec e
      { acc with oc := some r.1, ec := r.2.1, done := acc.done ++ [r.2.2] }
    else
      let r := closeChain o
      { acc with
        done := acc.done ++ [r.1],
        chains := acc.chains ++ [r.2],
        oc := some (startChain e) }

def walkFinish (acc : WalkAcc) : WalkAcc :=
  match acc.oc with
  | none => acc
  | some o =>
    let r := closeChain o
    { acc with done := acc.done ++ [r.1], chains := acc.chains ++ [r.2], oc := none }

/-- Phase 0/1 of `schedule_many` (lines 862-1064): build the entry
array, sort it, and run the chain-building walk. -/
def phase1 (bodies : List BodyData) : WalkAcc :=
  walkFinish ((List.insertionSort keyLE (buildEntries bodies)).foldl walkStep
    { done := [], oc := none, chains := [], ec := List.replicate bodies.length 1 })

/-! ### The world a `schedule_many` call acts on -/

/-- A slot of a previously scheduled behaviour, as far as this call
observes it: its reader flag and status word. -/
structure ExtSlot where
  reader : Bool
  status : SlotStatus
deriving DecidableEq, Repr

/-- A reference to a slot: the tail of an existing chain (external), or
a slot of the group being scheduled. -/
def SlotRef := Sum Nat (Nat × Nat)
deriving instance DecidableEq for SlotRef

/-- The scheduler-relevant fields of a cown (cown.h lines 135-150). -/
structure CownData where
  lastSlot : Option SlotRef
  nextWriter : Option Nat
  readWord : Nat
deriving DecidableEq

structure World where
  cowns : Nat → CownData
  extSlots : Nat → ExtSlot

def setCown (w : World) (c : Nat) (d : CownData) : World :=
  { w with cowns := fun x => if x = c then d else w.cowns x }

abbrev SlotAssoc := List ((Nat × Nat) × SlotData)

def slotGet (l : SlotAssoc) (k : Nat × Nat) : SlotData :=
  ((l.find? (fun p => p.1 == k)).map Prod.snd).getD default

def slotSet (l : SlotAssoc) (k : Nat × Nat) (f : SlotData → SlotData) : SlotAssoc :=
  l.map (fun p => if p.1 == k then (p.1, f p.2) else p)

def refStatus (w : World) (slots : SlotAssoc) : SlotRef → SlotStatus
  | Sum.inl p => (w.extSlots p).status
  | Sum.inr k => (slotGet slots k).status

def refIsReader (w : World) (slots : SlotAssoc) : SlotRef → Bool
  | Sum.inl p => (w.extSlots p).reader
  | Sum.inr k => (slotGet slots k).reader

def refSetStatus (w : World) (slots : SlotAssoc) (r : SlotRef) (st : SlotStatus) :
    World × SlotAssoc :=
  match r with
  | Sum.inl p =>
    let es := fun x => if x = p then { w.extSlots x with status := st } else w.extSlots x
    ({ w with extSlots := es }, slots)
  | Sum.inr k => (w, slotSet slots k (fun d => { d with status := st }))

/-- `handle_read_only_enqueue` (lines 554-587): try to link behind the
previous tail with `set_next_slot_reader_contended`; if there is no
previous tail, or the CAS fails because the tail is `ReadAvailable`
(which closes the chain), perform `add_read` and report whether this
acquired the first-reader RC.  Returns (world, slots, ref_count,
read_only_can_run). -/
def handleReadOnlyEnqueue (w : World) (slots : SlotAssoc) (prev : Option SlotRef)
    (chainFirst : Nat × Nat) (fcrc : Nat) (c : Nat) :
    World × SlotAssoc × Nat × Bool :=
  let link :=
    match prev with
    | none => none
    | some p =>
      if refStatus w slots p = SlotStatus.ready then
        some (refSetStatus w slots p (SlotStatus.nextReader chainFirst.1 chainFirst.2))
      else none
  match link, prev with
  | some ws, _ => (ws.1, ws.2, 0, false)
  | none, some p =>
    -- the contended CAS failed: the tail was ReadAvailable, close it
    let ws := refSetStatus w slots p SlotStatus.chainClosed
    let cd := ws.1.cowns c
    let r := addRead cd.readWord fcrc
    (setCown ws.1 c { cd with readWord := r.1 }, ws.2, if r.2 then 1 else 0, true)
  | none, none =>
    let cd := w.cowns c
    let r := addRead cd.readWord fcrc
    (setCown w c { cd with readWord := r.1 }, slots, if r.2 then 1 else 0, true)

/-- Phase 2 — acquire (lines 1067-1128) for one chain: exchange the
cown's `last_slot` with the chain's tail; with no predecessor a
read-only head performs `add_read` at once; behind a predecessor the
head links itself with the contended setters, falling back to the
ReadAvailable bookkeeping when the CAS fails. -/
def phase2Chain (w : World) (slots : SlotAssoc) (ci : ChainInfo) :
    World × SlotAssoc × ChainInfo :=
  let cd := w.cowns ci.cown
  let prev := cd.lastSlot
  let w₁ := setCown w ci.cown { cd with lastSlot := some (Sum.inr ci.lastSlotId) }
  match prev with
  | none =>
    let ci₁ := { ci with hadNoPredecessor := true }
    if (slotGet slots ci.firstSlotId).reader then
      let r := handleReadOnlyEnqueue w₁ slots none ci.firstSlotId ci.fcrc ci.cown
      (r.1, r.2.1, { ci₁ with refCount := r.2.2.1, readOnlyCanRun := r.2.2.2 })
    else (w₁, slots, ci₁)
  | some p =>
    -- the source busy-waits here until `prev` is past Wait (lines
    -- 1097-1102); the sequential model assumes the predecessor's 2PL has
    -- completed (wellformed world)
    if (slotGet slots ci.firstSlotId).reader then
      let r := handleReadOnlyEnqueue w₁ slots (some p) ci.firstSlotId ci.fcrc ci.cown
      (r.1, r.2.1, { ci with refCount := r.2.2.1, readOnlyCanRun := r.2.2.2 })
    else
      -- `set_next_slot_writer_contended(first_body)` (lines 1120-1127)
      if ¬ refIsReader w₁ slots p then
        let ws := refSetStatus w₁ slots p (SlotStatus.nextWriter ci.firstBodyIdx)
        (ws.1, ws.2, ci)
      else if refStatus w₁ slots p = SlotStatus.ready then
        let ws := refSetStatus w₁ slots p (SlotStatus.nextWriter ci.firstBodyIdx)
        (ws.1, ws.2, ci)
      else
        let ws := refSetStatus w₁ slots p SlotStatus.chainClosed
        (ws.1, ws.2, { ci with readOnlyCanRun := true })

def phase2 (w : World) (slots : SlotAssoc) (chains : List ChainInfo) :
    World × SlotAssoc × List ChainInfo :=
  chains.foldl
    (fun st ci =>
      let r := phase2Chain st.1 st.2.1 ci
      (r.1, r.2.1, st.2.2 ++ [r.2.2]))
    (w, slots, [])

/-! ### Events recorded by the remaining phases -/

inductive Ev where
  | markTail (id : Nat × Nat) (readAvail : Bool)  -- phase-3 set_ready / set_read_available
  | rcAcquire (c : Nat)                           -- a Cown::acquire call
  | rcRelease (c : Nat)                           -- a Cown::release call
  | push (b : Nat)                                -- Scheduler::schedule of body b's Work
deriving DecidableEq, Repr

/-- Per-chain reference-count reconciliation record of phase 4. -/
structure RcLedger where
  cown : Nat
  transfer : Nat
  required : Nat
  acquires : Nat
  releases : Nat
deriving DecidableEq, Repr

/-- Phase 3 — release (lines 1137-1154): flip each chain's tail from
`Wait` to `ReadAvailable` (runnable read-only chain) or `Ready`. -/
def phase3Chain (slots : SlotAssoc) (ci : ChainInfo) : SlotAssoc × Ev :=
  if (ci.hadNoPredecessor || ci.readOnlyCanRun) && ci.firstWriter == none then
    (slotSet slots ci.lastSlotId (fun d => { d with status := SlotStatus.readAvailable }),
     Ev.markTail ci.lastSlotId true)
  else
    (slotSet slots ci.lastSlotId (fun d => { d with status := SlotStatus.ready }),
     Ev.markTail ci.lastSlotId false)

def phase3 (slots : SlotAssoc) (chains : List ChainInfo) : SlotAssoc × List Ev :=
  chains.foldl
    (fun st ci =>
      let r := phase3Chain st.1 ci
      (r.1, st.2 ++ [r.2]))
    (slots, [])

/-- Phase 4 — process & resolve bookkeeping (lines 1158-1219) for one
chain: reconcile the transferred RCs against the required ones, then for
runnable heads either `try_write` (crediting `ec` on success, otherwise
installing `next_writer`) or credit the consecutive readers. -/
def phase4Chain (w : World) (slots : SlotAssoc) (ec : List Nat) (ci : ChainInfo) :
    World × List Nat × List Ev × RcLedger :=
  let rc := ci.refCount + (if ci.hadNoPredecessor then 1 else 0)
  let ar := acquireWithTransfer ci.transfer rc
  let evs := List.replicate ar.1 (Ev.rcAcquire ci.cown) ++
             List.replicate ar.2 (Ev.rcRelease ci.cown)
  let ledger : RcLedger := ⟨ci.cown, ci.transfer, rc, ar.1, ar.2⟩
  if ci.hadNoPredecessor || ci.readOnlyCanRun then
    if ¬ (slotGet slots ci.firstSlotId).reader then
      let cd := w.cowns ci.cown
      let tw := tryWrite cd.readWord
      let w₁ := setCown w ci.cown { cd with readWord := tw.1 }
      if tw.2 then (w₁, ecInc ec ci.firstBodyIdx, evs, ledger)
      else
        (setCown w₁ ci.cown { w₁.cowns ci.cown with nextWriter := some ci.firstBodyIdx },
         ec, evs, ledger)
    else
      let w₁ :=
        match ci.firstWriter with
        | some fw =>
          let cd := w.cowns ci.cown
          let tw := tryWrite cd.readWord   -- asserted to fail: readers are present
          let w' := setCown w ci.cown { cd with readWord := tw.1 }
          setCown w' ci.cown { w'.cowns ci.cown with nextWriter := some fw }
        | none => w
      (w₁, if ci.readOnlyCanRun then ecIncRange ec ci.firstBodyIdx ci.fcrc else ec,
       evs, ledger)
  else
    (w, if ci.readOnlyCanRun then ecIncRange ec ci.firstBodyIdx ci.fcrc else ec,
     evs, ledger)

def phase4 (w : World) (slots : SlotAssoc) (ec : List Nat) (chains : List ChainInfo) :
    World × List Nat × List Ev × List RcLedger :=
  chains.foldl
    (fun st ci =>
      let r := phase4Chain st.1 slots st.2.1 ci
      (r.1, r.2.1, st.2.2.1 ++ r.2.2.1, st.2.2.2 ++ [r.2.2.2]))
    (w, ec, [], [])

/-- The final resolve loop (lines 1221-1225): `bodies[i]->resolve(ec[i])`. -/
def phase5 (bodies : List BodyData) (ec : List Nat) : List BodyData × List Ev :=
  let z := bodies.enum.map (fun p =>
    let r := resolveStep p.2.execCountDown (ec.getD p.1 0)
    ({ p.2 with execCountDown := r.1 }, if r.2 then [Ev.push p.1] else []))
  (z.map Prod.fst, (z.map Prod.snd).flatten)

/-- The full result of a `schedule_many` call. -/
structure SMResult where
  world : World
  slots : SlotAssoc
  chains : List ChainInfo
  ec : List Nat
  bodies : List BodyData
  ledger : List RcLedger
  evs : List Ev

/-- `BehaviourCore::schedule_many(bodies, body_count)` (lines 762-1226),
sequentially, against the world `w`. -/
def scheduleMany (bodies : List BodyData) (w : World) : SMResult :=
  let acc := phase1 bodies
  let p2 := phase2 w acc.done acc.chains
  let p3 := phase3 p2.2.1 p2.2.2
  let p4 := phase4 p2.1 p3.1 acc.ec p2.2.2
  let p5 := phase5 bodies p4.2.1
  { world := p4.1
  , slots := p3.1
  , chains := p2.2.2
  , ec := p4.2.1
  , bodies := p5.1
  , ledger := p4.2.2.2
  , evs := p3.2 ++ p4.2.2.1 ++ p5.2 }

/-! ## The per-cown strong-reference ledger

`schedule_many`, `Slot::release` and `Slot::drop_read` acquire and
release the scheduler's strong references on a cown at five sites.  The
transition system below has exactly those sites as steps, each guarded
by the condition the source checks at that site, and keeps two ledgers:
`chainRefs`, the references held on behalf of the wait chain, and
`readRefs`, those held on behalf of the active reader front. -/

structure CownRc where
  lastSlot : Option Nat      -- identity of the current tail slot
  readWord : Nat             -- the ReadRefCount word
  chainRefs : Nat
  readRefs : Nat
deriving DecidableEq, Repr

inductive RcStep : CownRc → CownRc → Prop where
  /-- `schedule_many` phase 2 exchanging `last_slot` with the chain's
  tail (line 1076), combined with the phase-4 `ref_count++` for a chain
  whose exchange returned null (lines 1173-1177): exactly one reference
  is taken for the chain iff the previous tail was null. -/
  | enqueueChain (s : CownRc) (tail : Nat) :
      RcStep s
        { s with
          lastSlot := some tail,
          chainRefs := s.chainRefs + (if s.lastSlot = none then 1 else 0) }
  /-- `add_read(k)` with `k ≥ 1` (handle_read_only_enqueue lines
  574-586; `Slot::release` lines 1341-1351): one reference is taken for
  the reader front iff the old word was 0 (the first reader). -/
  | firstRead (s : CownRc) (k : Nat) :
      1 ≤ k →
      RcStep s
        { s with
          readWord := (addRead s.readWord k).1,
          readRefs := s.readRefs + (if s.readWord = 0 then 1 else 0) }
  /-- A failing `try_write` (cown.h lines 94-109) sets the
  writer-pending bit; no reference moves. -/
  | writePending (s : CownRc) :
      s.readWord ≠ 0 →
      RcStep s { s with readWord := (tryWrite s.readWord).1 }
  /-- `Slot::drop_read` (lines 1253-1278): `release_read`, and release
  one reference unless the status was `NOT_LAST`. -/
  | dropRead (s : CownRc) :
      2 ≤ s.readWord →
      RcStep s
        { s with
          readWord := (releaseRead s.readWord).1,
          readRefs := s.readRefs -
            (if (releaseRead s.readWord).2 = RRStatus.notLast then 0 else 1) }
  /-- `Slot::release` succeeding in the CAS of `last_slot` from this
  slot to null (lines 1297-1313): the chain's reference is dropped. -/
  | releaseTail (s : CownRc) (t : Nat) :
      s.lastSlot = some t →
      RcStep s { s with lastSlot := none, chainRefs := s.chainRefs - 1 }

/-- An idle cown: no chain, no readers, no scheduler references. -/
def idleCown : CownRc := ⟨none, 0, 0, 0⟩

def RcReachable (s : CownRc) : Prop := Relation.ReflTransGen RcStep idleCown s

/-! ## Observation helpers used by the theorems -/

def isMark : Ev → Bool
  | Ev.markTail _ _ => true
  | _ => false

def isPush : Ev → Bool
  | Ev.push _ => true
  | _ => false

def slotsOf (bodies : List BodyData) (bi : Nat) : List SlotData :=
  (bodies.getD bi ⟨[], 0⟩).slots

/-- Number of slots behaviour `bi` has for cown `c` in the request. -/
def groupCount (bodies : List BodyData) (bi c : Nat) : Nat :=
  ((slotsOf bodies bi).filter (fun s => s.cown == some c)).length

/-- Total number of MOVE-flagged slots in the request. -/
def totalMoves : List BodyData → Nat
  | [] => 0
  | b :: rest => b.slots.countP (fun s => s.move) + totalMoves rest

def transferSum : List ChainInfo → Nat
  | [] => 0
  | ci :: rest => ci.transfer + transferSum rest

def ocTransfer : Option OpenChain → Nat
  | none => 0
  | some o => o.transfer

/-- The "previous entry" key the phase-1 walk dedups against: the cown
and behaviour of the entry last added to the open chain (`none` paired
with 0 when no chain is open). -/
def ocKey : Option OpenChain → Option Nat × Nat
  | none => (none, 0)
  | some o => (some o.cown, o.body)

def entryCB (e : Entry) : Option Nat × Nat := (e.data.cown, e.bodyIdx)

/-- The per-slot outcome of the phase-1 walk, computed directly on the
entry list: each entry keeps its cown pointer unless it repeats the
(cown, behaviour) of the immediately preceding entry, in which case the
walk nulls it. -/
def expectedFrom (pk : Option Nat × Nat) : List Entry → List ((Nat × Nat) × Option Nat)
  | [] => []
  | e :: rest =>
    ((e.bodyIdx, e.slotIdx), if entryCB e = pk then none else e.data.cown) ::
      expectedFrom (entryCB e) rest

def cownProj (p : (Nat × Nat) × SlotData) : (Nat × Nat) × Option Nat :=
  (p.1, p.2.cown)

/-- Spec-side count of the slots the walk keeps for behaviour `bi` on
cown `c`. -/
def keptIn (pk : Option Nat × Nat) (bi c : Nat) : List Entry → Nat
  | [] => 0
  | e :: rest =>
    (if entryCB e ≠ pk ∧ e.bodyIdx = bi ∧ e.data.cown = some c then 1 else 0)
      + keptIn (entryCB e) bi c rest

/-- Fixed example input for the concrete theorems: the world with no
chains and all external slots quiescent, and the single behaviour
`when(a, a)` requesting the same cown (id 1) twice for writing — the
source's duplicate-cown example (behaviourcore.h lines 835-843). -/
def exampleWorld : World :=
  ⟨fun _ => ⟨none, none, 0⟩, fun _ => ⟨false, SlotStatus.ready⟩⟩

def exampleBodies : List BodyData :=
  [⟨[⟨some 1, false, false, SlotStatus.wait, none⟩,
     ⟨some 1, false, false, SlotStatus.wait, none⟩], 3⟩]

/-- The pending (not yet flushed) slot of an open chain, projected to
(slot id, cown pointer). -/
def ocPend : Option OpenChain → List ((Nat × Nat) × Option Nat)
  | none => []
  | some o => [(o.currId, some o.cown)]

/-- Invariant of the phase-1 loop state: `curr_slot` belongs to the
chain's cown and to the behaviour recorded in `body`, and its MOVE flag
has been taken. -/
def OCInv (o : OpenChain) : Prop :=
  o.curr.cown = some o.cown ∧ o.currId.1 = o.body ∧ o.curr.move = false

/-- The reference-count reconciliation record a chain contributes in
phase 4 (lines 1172-1177): `ref_count` gains 1 for a chain with no
predecessor, and `acquire_with_transfer` balances it against the
transferred MOVE references. -/
def phase4Ledger (ci : ChainInfo) : RcLedger :=
  let rc := ci.refCount + (if ci.hadNoPredecessor then 1 else 0)
  ⟨ci.cown, ci.transfer, rc, (acquireWithTransfer ci.transfer rc).1,
    (acquireWithTransfer ci.transfer rc).2⟩

/-- Round-robin lockstep invariant of the work-stealing queue under a
single sequential user: `m` items were ever enqueued, `k` of them
dequeued, and sub-queue `i` holds exactly the pending item numbers
congruent to `i` mod 4, in order. -/
def WSQInv (q : WSQ) (k m : Nat) : Prop :=
  k ≤ m ∧ q.enqIdx = m % 4 ∧ q.deqIdx = k % 4 ∧
    ∀ i : Fin 4,
      q.queues i = (List.range' (k + 1) (m - k)).filter (fun j => j % 4 == i.val)

/-! # Theorems -/

/-- Or-ing the read tag into an even word is the same as adding 1. -/
theorem lor_one_of_even (n : Nat) (h : n % 2 = 0) : n ||| 1 = n + 1 := by
  apply Nat.eq_of_testBit_eq
  intro i
  cases i with
  | zero =>
    simp only [Nat.testBit_lor, Nat.testBit_zero]
    have h1 : (n + 1) % 2 = 1 := by omega
    simp [h, h1]
  | succ j =>
    have h2 : (n + 1) / 2 = n / 2 := by omega
    rw [Nat.testBit_lor, Nat.testBit_add_one n j, Nat.testBit_add_one 1 j,
      Nat.testBit_add_one (n + 1) j, h2]
    simp

/-! ## Claim C5 -/

/-- Claim C5, counterexample.  The claim says that in the
`LastReaderWaitingWriter` case the writer-pending bit is cleared (the
word stored to 0) *by the caller* before the next writer is woken, i.e.
that `release_read` returns leaving the word at 1.  In the source
(cown.h line 87) `release_read` itself stores 0 before returning: from
the word 3 (one reader, writer pending), `release_read` returns
`LAST_READER_WAITING_WRITER` with the word already 0, not 1. -/
theorem c5_counterexample :
    (releaseRead 3).2 = RRStatus.lastReaderWaitingWriter
    ∧ (releaseRead 3).1 = 0 ∧ ¬((releaseRead 3).1 = 1) := by decide

/-- Claim C5, amended: for a `read_ref_count` word `2*n + w` encoding at
least one active reader (`n ≥ 1`, writer bit `w ≤ 1`), `release_read`
atomically subtracts 2 and returns `NotLast` if readers remain,
`LastReader` if the value reaches 0, and `LastReaderWaitingWriter` if
the value reaches 1 (writer bit set, no readers); in the third case the
writer-pending bit is cleared (the word is stored to 0) by
`release_read` itself before it returns, so the word is already 0 when
the caller (`Slot::drop_read`) wakes the next writer. -/
theorem c5_release_read (n w : Nat) (hn : 1 ≤ n) (hw : w ≤ 1) :
    (2 ≤ n → releaseRead (2 * n + w) = (2 * (n - 1) + w, RRStatus.notLast))
    ∧ (n = 1 → w = 0 → releaseRead (2 * n + w) = (0, RRStatus.lastReader))
    ∧ (n = 1 → w = 1 → releaseRead (2 * n + w) = (0, RRStatus.lastReaderWaitingWriter)) := by
  refine ⟨?_, ?_, ?_⟩
  · intro h2
    have hgt : 2 * n + w > 3 := by omega
    simp only [releaseRead, if_pos hgt, Prod.mk.injEq]
    exact ⟨by omega, trivial⟩
  · intro h1 h0; subst h1; subst h0; decide
  · intro h1 h1'; subst h1; subst h1'; decide

/-- Claim C5 witness: the amended theorem at the words 5 (two readers,
writer pending) and 3 (one reader, writer pending). -/
theorem c5_release_read_witness :
    releaseRead 5 = (3, RRStatus.notLast)
    ∧ releaseRead 3 = (0, RRStatus.lastReaderWaitingWriter) := by
  constructor
  · have h := (c5_release_read 2 1 (by decide) (by decide)).1 (by decide)
    simpa using h
  · exact (c5_release_read 1 1 (by decide) (by decide)).2.2 rfl rfl

/-! ## Claim C6 -/

/-- Claim C6: for every attempt by a successor to link itself behind a
predecessor reader slot, with `n` the successor reader slot's address
and `b` the successor writer behaviour's address (4-byte aligned,
non-null): if the predecessor's status is `Ready` (1) the operation
installs the encoded next pointer — a value ≥ 4 whose low bit is set
exactly when the successor is a reader slot — and returns `true`; if the
predecessor's status is `ReadAvailable` (2) the operation gives up
linking, stores `ChainClosed` (3) into the predecessor's status, and
returns `false`. -/
theorem c6_contended_link (status n b : Nat)
    (hn4 : n % 4 = 0) (hn0 : n ≠ 0) (hb4 : b % 4 = 0) (hb0 : b ≠ 0) :
    (status = STATUS_READY →
      setNextSlotReaderContendedW status n = (n + 1, true)
      ∧ 4 ≤ n + 1 ∧ (n + 1) % 2 = 1
      ∧ setNextSlotWriterContendedW status true b = (b, true)
      ∧ 4 ≤ b ∧ b % 2 = 0)
    ∧ (status = STATUS_READAVAILABLE →
      setNextSlotReaderContendedW status n = (3, false)
      ∧ setNextSlotWriterContendedW status true b = (3, false)) := by
  have hlor : n ||| 1 = n + 1 := lor_one_of_even n (by omega)
  constructor
  · intro h; subst h
    refine ⟨?_, by omega, by omega, ?_, by omega, by omega⟩
    · simp [setNextSlotReaderContendedW, STATUS_READY, STATUS_READ_FLAG, hlor]
    · simp [setNextSlotWriterContendedW, STATUS_READY]
  · intro h; subst h
    constructor
    · simp [setNextSlotReaderContendedW, STATUS_READY, STATUS_READAVAILABLE,
        STATUS_CHAIN_CLOSED]
    · simp [setNextSlotWriterContendedW, STATUS_READY, STATUS_READAVAILABLE,
        STATUS_CHAIN_CLOSED]

/-- Claim C6 witness: the theorem at reader-slot address 4, behaviour
address 8, with predecessor status Ready and ReadAvailable. -/
theorem c6_contended_link_witness :
    (setNextSlotReaderContendedW 1 4 = (5, true)
      ∧ setNextSlotWriterContendedW 1 true 8 = (8, true))
    ∧ (setNextSlotReaderContendedW 2 4 = (3, false)
      ∧ setNextSlotWriterContendedW 2 true 8 = (3, false)) := by
  have h := c6_contended_link 1 4 8 (by decide) (by decide) (by decide) (by decide)
  have h2 := c6_contended_link 2 4 8 (by decide) (by decide) (by decide) (by decide)
  refine ⟨⟨?_, ?_⟩, ?_⟩
  · exact (h.1 rfl).1
  · exact (h.1 rfl).2.2.2.1
  · exact h2.2 rfl

/-! ## Claim C10 -/

theorem resolveRun_zeroSum (s : Nat) (hs : s ≠ 0) (ns : List Nat) (h : ns.sum = 0) :
    (resolveRun s ns).countP (fun t => t.2.2) = 0
    ∧ (∀ t ∈ resolveRun s ns, t.1 = s ∧ t.2.1 = 0 ∧ t.2.2 = false)
    ∧ resolveRunState s ns = s := by
  induction ns with
  | nil => simp [resolveRun, resolveRunState]
  | cons n rest ih =>
    have hn : n = 0 := by simp [List.sum_cons] at h; omega
    have hr : rest.sum = 0 := by simp [List.sum_cons] at h; omega
    subst hn
    have hstep : resolveStep s 0 = (s, false) := by
      simp [resolveStep, hs]
    obtain ⟨ih1, ih2, ih3⟩ := ih hr
    refine ⟨?_, ?_, ?_⟩
    · simp [resolveRun, hstep, List.countP_cons, ih1]
    · intro t ht
      simp only [resolveRun, hstep, List.mem_cons] at ht
      rcases ht with rfl | ht
      · exact ⟨rfl, rfl, rfl⟩
      · exact ih2 t ht
    · simp [resolveRunState, hstep, ih3]

theorem resolveRun_exactSum (s : Nat) (hs : s ≠ 0) (ns : List Nat) (h : ns.sum = s) :
    (resolveRun s ns).countP (fun t => t.2.2) = 1
    ∧ (∀ t ∈ resolveRun s ns, (t.2.2 = true ↔ t.1 = t.2.1) ∧ t.1 ≠ 0)
    ∧ resolveRunState s ns ≠ 0 := by
  induction ns generalizing s with
  | nil => simp [List.sum_nil] at h; omega
  | cons n rest ih =>
    simp only [List.sum_cons] at h
    by_cases hn : n = s
    · subst hn
      have hr : rest.sum = 0 := by omega
      have hstep : resolveStep n n = (n, true) := by simp [resolveStep]
      obtain ⟨z1, z2, z3⟩ := resolveRun_zeroSum n hs rest hr
      refine ⟨?_, ?_, ?_⟩
      · simp [resolveRun, hstep, List.countP_cons, z1]
      · intro t ht
        simp only [resolveRun, hstep, List.mem_cons] at ht
        rcases ht with rfl | ht
        · exact ⟨by simp, hs⟩
        · obtain ⟨h1, h2, h3⟩ := z2 t ht
          refine ⟨?_, by omega⟩
          rw [h1, h2, h3]
          simp
          omega
      · simp only [resolveRunState, hstep]
        rw [z3]; exact hs
    · have hlt : n < s := by omega
      have hne : ¬(s = n) := by omega
      have hstep : resolveStep s n = (s - n, false) := by simp [resolveStep, hne]
      have hrest : rest.sum = s - n := by omega
      have hsn : s - n ≠ 0 := by omega
      obtain ⟨ih1, ih2, ih3⟩ := ih (s - n) hsn hrest
      refine ⟨?_, ?_, ?_⟩
      · simp [resolveRun, hstep, List.countP_cons, ih1]
      · intro t ht
        simp only [resolveRun, hstep, List.mem_cons] at ht
        rcases ht with rfl | ht
        · refine ⟨?_, hs⟩
          simp
          omega
        · exact ih2 t ht
      · simpa [resolveRunState, hstep] using ih3

/-- Claim C10: for a `BehaviourCore` with `count` slots
(`exec_count_down` initialised to `count + 1`), in any sequence of
`resolve(n)` calls whose amounts sum to `count + 1`, the behaviour's
`Work` is pushed to the scheduler exactly once; a call pushes exactly
when the remaining `exec_count_down` equals its argument, and the
triggering call elides its decrement, so `exec_count_down` is never
decremented to zero — it is nonzero before every call and after the
whole sequence. -/
theorem c10_resolve_pushes_once (count : Nat) (ns : List Nat)
    (h : ns.sum = count + 1) :
    (resolveRun (mkExecCountDown count) ns).countP (fun t => t.2.2) = 1
    ∧ (∀ t ∈ resolveRun (mkExecCountDown count) ns,
        (t.2.2 = true ↔ t.1 = t.2.1)
        ∧ t.1 ≠ 0
        ∧ (t.2.2 = true → resolveStep t.1 t.2.1 = (t.1, true)))
    ∧ resolveRunState (mkExecCountDown count) ns ≠ 0 := by
  obtain ⟨h1, h2, h3⟩ :=
    resolveRun_exactSum (count + 1) (by omega) ns h
  refine ⟨h1, ?_, h3⟩
  intro t ht
  obtain ⟨hiff, hne⟩ := h2 t ht
  refine ⟨hiff, hne, ?_⟩
  intro htrue
  have := hiff.mp htrue
  simp [resolveStep, this]

/-- Claim C10 witness: a behaviour over 2 cowns (`exec_count_down = 3`)
resolved by the calls 1 then 2. -/
theorem c10_resolve_pushes_once_witness :
    (resolveRun (mkExecCountDown 2) [1, 2]).countP (fun t => t.2.2) = 1
    ∧ resolveRunState (mkExecCountDown 2) [1, 2] ≠ 0 :=
  ⟨(c10_resolve_pushes_once 2 [1, 2] (by decide)).1,
   (c10_resolve_pushes_once 2 [1, 2] (by decide)).2.2⟩

/-! ## Claim C8 -/

theorem returnNextWork_flag (w : Worker) : (returnNextWork w).flag = w.flag := by
  cases h : w.nextWork <;> simp [returnNextWork, h]

theorem tryStealWk_pres (w : Worker) :
    (tryStealWk w).2.flag = w.flag ∧ (tryStealWk w).2.coreQ = w.coreQ
    ∧ (tryStealWk w).2.nextWork = w.nextWork := by
  unfold tryStealWk
  split <;> exact ⟨rfl, rfl, rfl⟩

theorem getWorkAfterFairness_found (w : Worker) (s y : Nat)
    (hq : (wsqDequeue w.coreQ).1 = some y) :
    (getWorkAfterFairness w s).1 = some y
    ∧ (getWorkAfterFairness w s).2.2 = s
    ∧ (getWorkAfterFairness w s).2.1.flag = w.flag := by
  rcases hr : wsqDequeue w.coreQ with ⟨r1, r2⟩
  have hq' : r1 = some y := by rw [hr] at hq; exact hq
  subst hq'
  unfold getWorkAfterFairness
  rw [hr]
  exact ⟨rfl, rfl, (returnNextWork_flag _).trans rfl⟩

/-- Claim C8, counterexample.  (a) The body of the pre-allocated
fairness-token `Work` (core.h lines 28-34) only raises
`should_steal_for_fairness` and reports whether to deallocate; it
enqueues nothing, in particular it does not re-enqueue the token (and no
other code in the runtime enqueues it).  (b) With the flag raised but a
batched thread-local `next_work` item available, the worker's next
`get_work` (schedulerthread.h lines 140-144) returns the local item
without clearing the flag and without any steal attempt. -/
theorem c8_counterexample :
    (tokenWorkBody ⟨false, true⟩).2.2 = []
    ∧ (getWork { nextWork := some 7, batch := 5, flag := true, coreQ := emptyWSQ,
                 victimQ := emptyWSQ, victimIsCore := false }).1 = some 7
    ∧ (getWork { nextWork := some 7, batch := 5, flag := true, coreQ := emptyWSQ,
                 victimQ := emptyWSQ, victimIsCore := false }).2.1.flag = true
    ∧ (getWork { nextWork := some 7, batch := 5, flag := true, coreQ := emptyWSQ,
                 victimQ := emptyWSQ, victimIsCore := false }).2.2 = 0 :=
  ⟨rfl, rfl, rfl, rfl⟩

/-- Claim C8, amended: running the pre-allocated per-core fairness-token
Work sets `should_steal_for_fairness` on its core and leaves the token
allocated for reuse (it does not re-enqueue itself — its body enqueues
nothing); and whenever the flag is raised, the worker's next `get_work`
that is not serving a batched thread-local item clears the flag and
performs exactly one steal attempt, even if its core queue has work. -/
theorem c8_token_and_fairness (c : CoreModel) (w : Worker)
    (hflag : w.flag = true) (hnw : w.nextWork = none)
    (y : Nat) (hq : (wsqDequeue w.coreQ).1 = some y) :
    ((tokenWorkBody c).1.shouldStealForFairness = true
      ∧ (tokenWorkBody c).2.2 = []
      ∧ (c.tokenWorkPresent = true → (tokenWorkBody c).2.1 = false))
    ∧ (getWork w).2.2 = 1 ∧ (getWork w).2.1.flag = false := by
  refine ⟨⟨rfl, rfl, fun h => by simp [tokenWorkBody, h]⟩, ?_⟩
  obtain ⟨nw, bt, fl, cq, vq, vic⟩ := w
  simp only at hflag hnw hq
  subst hflag; subst hnw
  set w₂ : Worker :=
    { nextWork := none, batch := BATCH_SIZE, flag := false, coreQ := cq,
      victimQ := vq, victimIsCore := vic } with hw₂
  have hgw : getWork
      { nextWork := none, batch := bt, flag := true, coreQ := cq,
        victimQ := vq, victimIsCore := vic } =
      (match (tryStealWk w₂).1 with
       | some x => (some x, returnNextWork (tryStealWk w₂).2, 1)
       | none => getWorkAfterFairness (tryStealWk w₂).2 1) := by
    unfold getWork
    rfl
  rw [hgw]
  rcases hx : (tryStealWk w₂).1 with _ | x
  · have hp := tryStealWk_pres w₂
    have hq' : (wsqDequeue (tryStealWk w₂).2.coreQ).1 = some y := by
      rw [hp.2.1]; exact hq
    have hf := getWorkAfterFairness_found (tryStealWk w₂).2 1 y hq'
    refine ⟨hf.2.1, ?_⟩
    rw [hf.2.2, hp.1]
  · exact ⟨rfl, (returnNextWork_flag _).trans (tryStealWk_pres w₂).1⟩

/-- Claim C8 witness: a core model and a worker whose core queue holds
the work item 3, flag raised, no batched local item. -/
theorem c8_token_and_fairness_witness :
    ((tokenWorkBody ⟨false, true⟩).1.shouldStealForFairness = true
      ∧ (tokenWorkBody ⟨false, true⟩).2.2 = []
      ∧ ((⟨false, true⟩ : CoreModel).tokenWorkPresent = true →
          (tokenWorkBody ⟨false, true⟩).2.1 = false))
    ∧ (getWork { nextWork := none, batch := 0, flag := true,
                 coreQ := wsqEnqueue emptyWSQ 3, victimQ := emptyWSQ,
                 victimIsCore := true }).2.2 = 1
    ∧ (getWork { nextWork := none, batch := 0, flag := true,
                 coreQ := wsqEnqueue emptyWSQ 3, victimQ := emptyWSQ,
                 victimIsCore := true }).2.1.flag = false :=
  c8_token_and_fairness ⟨false, true⟩
    { nextWork := none, batch := 0, flag := true, coreQ := wsqEnqueue emptyWSQ 3,
      victimQ := emptyWSQ, victimIsCore := true } rfl rfl 3 rfl

/-! ## Claim C4 -/

/-- Claim C4: in the per-cown reference ledger, whenever `last_slot` is
non-null the scheduler holds exactly one strong reference to the cown on
behalf of the wait chain (and, independently, exactly one on behalf of
the reader front whenever the read word is non-zero): the chain's first
acquirer — the chain whose `last_slot` exchange returned null, or the
first reader — adds exactly one reference (definition of the
`enqueueChain` / `firstRead` steps), and releasing the last chain entry —
the successful CAS of `last_slot` back to null in `Slot::release`, or
the last reader's `drop_read` — releases exactly that one reference
(the `releaseTail` / `dropRead` steps). -/
theorem c4_chain_holds_one_ref (s : CownRc) (h : RcReachable s) :
    s.chainRefs = (if s.lastSlot.isSome then 1 else 0)
    ∧ s.readRefs = (if s.readWord = 0 then 0 else 1) := by
  induction h with
  | refl => simp [idleCown]
  | @tail b c _ step ih =>
    obtain ⟨ih1, ih2⟩ := ih
    cases step with
    | enqueueChain t =>
      refine ⟨?_, by simpa using ih2⟩
      rcases hb : b.lastSlot with _ | p
      · simp only [hb, Option.isSome_some, if_pos] at *
        simp [hb, ih1]
      · simp only [hb] at ih1
        simp [hb, ih1]
    | firstRead k hk =>
      refine ⟨by simpa using ih1, ?_⟩
      rcases hb : Nat.decEq b.readWord 0 with _ | _
      all_goals rename_i hw
      · simp only [hb] at *
        simp only [addRead]
        rw [if_neg hw] at ih2 ⊢
        have : ¬(b.readWord + k * 2 = 0) := by omega
        simpa [this] using ih2
      · simp only [addRead]
        rw [if_pos hw] at ih2
        rw [hw]
        have hk0 : ¬(k = 0) := by omega
        simp [ih2, hk0]
    | writePending hw =>
      refine ⟨by simpa using ih1, ?_⟩
      simp only [tryWrite, if_neg hw]
      rw [if_neg hw] at ih2
      have h1 : ¬(b.readWord = 0) := hw
      have h2 : ¬(b.readWord + 1 = 0) := by omega
      simp [h1, h2, ih2]
    | dropRead hw =>
      refine ⟨by simpa using ih1, ?_⟩
      have hw0 : ¬(b.readWord = 0) := by omega
      rw [if_neg hw0] at ih2
      by_cases h3 : b.readWord > 3
      · have : releaseRead b.readWord = (b.readWord - 2, RRStatus.notLast) := by
          simp [releaseRead, h3]
        rw [this]
        have : ¬(b.readWord - 2 = 0) := by omega
        simp [this, ih2]
      · by_cases h2 : b.readWord = 2
        · have : releaseRead b.readWord = (0, RRStatus.lastReader) := by
            simp [releaseRead, h2]
          rw [this]
          simp [ih2]
        · have he : b.readWord = 3 := by omega
          have : releaseRead b.readWord = (0, RRStatus.lastReaderWaitingWriter) := by
            simp [releaseRead, he]
          rw [this]
          simp [ih2]
    | releaseTail t ht =>
      refine ⟨?_, by simpa using ih2⟩
      rw [ht] at ih1
      simp only [Option.isSome_some, if_pos] at ih1
      simp [ih1]

/-- Claim C4 witness: the invariant at the state reached by scheduling
one chain (tail slot 5) on an idle cown. -/
theorem c4_chain_holds_one_ref_witness :
    (⟨some 5, 0, 1, 0⟩ : CownRc).chainRefs
      = (if (⟨some 5, 0, 1, 0⟩ : CownRc).lastSlot.isSome then 1 else 0)
    ∧ (⟨some 5, 0, 1, 0⟩ : CownRc).readRefs
      = (if (⟨some 5, 0, 1, 0⟩ : CownRc).readWord = 0 then 0 else 1) :=
  c4_chain_holds_one_ref ⟨some 5, 0, 1, 0⟩
    (Relation.ReflTransGen.single (RcStep.enqueueChain idleCown 5))

/-! ## Claim C7 -/

theorem wsqInv_empty : WSQInv emptyWSQ 0 0 := by
  refine ⟨Nat.le_refl 0, rfl, rfl, fun i => ?_⟩
  simp [emptyWSQ]

theorem wsqEnqueue_inv (q : WSQ) (k m : Nat) (h : WSQInv q k m) :
    WSQInv (wsqEnqueue q (m + 1)) k (m + 1) := by
  obtain ⟨hkm, he, hd, hq⟩ := h
  have hidx : (q.enqIdx + 1) % 4 = (m + 1) % 4 := by rw [he]; omega
  have hr : List.range' (k + 1) (m + 1 - k)
      = List.range' (k + 1) (m - k) ++ [m + 1] := by
    have h1 : m + 1 - k = (m - k) + 1 := by omega
    rw [h1, List.range'_concat]
    have h2 : k + 1 + 1 * (m - k) = m + 1 := by omega
    rw [h2]
  refine ⟨by omega, by simp [wsqEnqueue, hidx], by simp [wsqEnqueue, hd], ?_⟩
  intro i
  simp only [wsqEnqueue, Function.update_apply]
  rw [hr, List.filter_append]
  by_cases hc : (m + 1) % 4 = i.val
  · have hieq : i = (⟨(q.enqIdx + 1) % 4, by omega⟩ : Fin 4) := by
      apply Fin.ext
      simp [hidx, hc]
    rw [if_pos hieq, hieq]
    simp only [hq]
    have : List.filter (fun j => j % 4 == i.val) [m + 1] = [m + 1] := by
      simp [List.filter, hc]
    rw [hidx]
    simp [hc, hq]
  · have hieq : ¬(i = (⟨(q.enqIdx + 1) % 4, by omega⟩ : Fin 4)) := by
      intro hcon
      apply hc
      rw [hcon]
      simp [hidx]
    rw [if_neg hieq]
    have hbe : ((m + 1) % 4 == i.val) = false := by
      simp only [beq_eq_false_iff_ne]
      exact hc
    have : List.filter (fun j => j % 4 == i.val) [m + 1] = [] := by
      simp [List.filter, hbe]
    rw [this, List.append_nil]
    exact hq i

theorem wsqDequeueAux_empty (fuel : Nat) :
    ∀ q : WSQ, q.deqIdx < 4 → (∀ i, q.queues i = []) →
      wsqDequeueAux q fuel = (none, { q with deqIdx := (q.deqIdx + fuel) % 4 }) := by
  induction fuel with
  | zero =>
    intro q hd hq
    have : (q.deqIdx + 0) % 4 = q.deqIdx := by omega
    rw [this]
    rfl
  | succ f ih =>
    intro q hd hq
    have hup : Function.update q.queues (⟨(q.deqIdx + 1) % 4, by omega⟩ : Fin 4) []
        = q.queues := by
      rw [← hq ⟨(q.deqIdx + 1) % 4, by omega⟩]
      exact Function.update_eq_self _ _
    rw [wsqDequeueAux]
    simp only [hq, mpmcDequeue, hup]
    rw [ih { enqIdx := q.enqIdx, deqIdx := (q.deqIdx + 1) % 4, queues := q.queues }
      (show (q.deqIdx + 1) % 4 < 4 by omega) (fun i => hq i)]
    have harith : ((q.deqIdx + 1) % 4 + f) % 4 = (q.deqIdx + (f + 1)) % 4 := by omega
    simp [harith]

theorem wsqDequeue_inv_none (q : WSQ) (k : Nat) (h : WSQInv q k k) :
    wsqDequeue q = (none, q) := by
  obtain ⟨_, _, hd, hq⟩ := h
  have hempty : ∀ i, q.queues i = [] := by
    intro i
    rw [hq i]
    simp
  have hd4 : q.deqIdx < 4 := by omega
  rw [wsqDequeue, wsqDequeueAux_empty 4 q hd4 hempty]
  have : (q.deqIdx + 4) % 4 = q.deqIdx := by omega
  rw [this]

theorem wsqDequeue_inv_some (q : WSQ) (k m : Nat) (h : WSQInv q k m) (hkm : k < m) :
    (wsqDequeue q).1 = some (k + 1) ∧ WSQInv (wsqDequeue q).2 (k + 1) m := by
  obtain ⟨_, he, hd, hq⟩ := h
  have hiv : ((q.deqIdx + 1) % 4) = (k + 1) % 4 := by rw [hd]; omega
  have hrange : List.range' (k + 1) (m - k)
      = (k + 1) :: List.range' (k + 2) (m - k - 1) := by
    have h1 : m - k = (m - k - 1) + 1 := by omega
    conv_lhs => rw [h1, List.range'_succ]
  have hhead : q.queues ⟨(q.deqIdx + 1) % 4, by omega⟩
      = (k + 1) :: (List.range' (k + 2) (m - k - 1)).filter
          (fun j => j % 4 == (k + 1) % 4) := by
    rw [hq]
    simp only [Fin.val_mk]
    rw [hiv, hrange, List.filter_cons_of_pos (by simp)]
  have hstep : wsqDequeue q
      = (some (k + 1),
          { q with
            deqIdx := (q.deqIdx + 1) % 4,
            queues := Function.update q.queues ⟨(q.deqIdx + 1) % 4, by omega⟩
              ((List.range' (k + 2) (m - k - 1)).filter
                (fun j => j % 4 == (k + 1) % 4)) }) := by
    rw [wsqDequeue]
    rw [wsqDequeueAux]
    simp only [hhead, mpmcDequeue]
  rw [hstep]
  refine ⟨rfl, by omega, by simpa using he, by simpa using hiv, ?_⟩
  intro i
  simp only [Function.update_apply]
  by_cases hc : i = (⟨(q.deqIdx + 1) % 4, by omega⟩ : Fin 4)
  · rw [if_pos hc]
    have hcv : i.val = (k + 1) % 4 := by rw [hc]; simp [hiv]
    rw [hcv]
    have h7 : List.range' (k + 1 + 1) (m - (k + 1)) = List.range' (k + 2) (m - k - 1) := by
      rfl
    rw [h7]
  · rw [if_neg hc]
    rw [hq i, hrange]
    have hbe : (((k + 1) % 4 : Nat) == (i.val : Nat)) = false := by
      simp only [beq_eq_false_iff_ne]
      intro hcon
      apply hc
      apply Fin.ext
      simp [hiv, ← hcon]
    simp only [List.filter_cons, hbe, Bool.false_eq_true, if_false]
    have h7 : List.range' (k + 1 + 1) (m - (k + 1)) = List.range' (k + 2) (m - k - 1) := by
      rfl
    rw [h7]

theorem wsqRun_fifo (ops : List Bool) :
    ∀ (q : WSQ) (k m : Nat), WSQInv q k m →
      ∃ k' m', k ≤ k' ∧ WSQInv (wsqRun q m ops).1 k' m'
        ∧ (wsqRun q m ops).2 = List.range' (k + 1) (k' - k) := by
  induction ops with
  | nil =>
    intro q k m h
    exact ⟨k, m, Nat.le_refl k, h, by simp [wsqRun]⟩
  | cons op rest ih =>
    intro q k m h
    cases op
    · rcases Nat.lt_or_ge k m with hkm | hkm
      · obtain ⟨h1, h2⟩ := wsqDequeue_inv_some q k m h hkm
        obtain ⟨k', m', hk, hinv, hout⟩ := ih (wsqDequeue q).2 (k + 1) m h2
        refine ⟨k', m', by omega, hinv, ?_⟩
        show ((wsqDequeue q).1.toList) ++ (wsqRun (wsqDequeue q).2 m rest).2
          = List.range' (k + 1) (k' - k)
        rw [h1, hout]
        have h3 : k' - k = (k' - (k + 1)) + 1 := by omega
        rw [h3, List.range'_succ]
        rfl
      · have hk : k = m := Nat.le_antisymm h.1 hkm
        subst hk
        have h1 := wsqDequeue_inv_none q k h
        obtain ⟨k', m', hk', hinv, hout⟩ := ih q k k h
        refine ⟨k', m', hk', ?_, ?_⟩
        · show WSQInv (wsqRun (wsqDequeue q).2 k rest).1 k' m'
          rw [h1]
          exact hinv
        · show ((wsqDequeue q).1.toList) ++ (wsqRun (wsqDequeue q).2 k rest).2
            = List.range' (k + 1) (k' - k)
          rw [h1]
          simpa using hout
    · have h1 := wsqEnqueue_inv q k m h
      obtain ⟨k', m', hk, hinv, hout⟩ := ih (wsqEnqueue q (m + 1)) k (m + 1) h1
      exact ⟨k', m', hk, hinv, hout⟩

/-- Claim C7, counterexample.  Two work items scheduled consecutively by
the worker via `schedule_fifo` — with no stealing and no other thread —
are executed in reverse order: `schedule_fifo(1)` holds item 1 in the
thread-local `next_work` slot, `schedule_fifo(2)` flushes item 1 to the
core's queue and holds item 2, and the next `get_work` returns the
thread-local item 2 before the queued item 1. -/
theorem c7_counterexample :
    (getWork (scheduleFifo (scheduleFifo
      { nextWork := none, batch := 100, flag := false, coreQ := emptyWSQ,
        victimQ := emptyWSQ, victimIsCore := true } 1) 2)).1 = some 2
    ∧ (getWork (getWork (scheduleFifo (scheduleFifo
        { nextWork := none, batch := 100, flag := false, coreQ := emptyWSQ,
          victimQ := emptyWSQ, victimIsCore := true } 1) 2)).2.1).1 = some 1
    ∧ ¬((getWork (scheduleFifo (scheduleFifo
        { nextWork := none, batch := 100, flag := false, coreQ := emptyWSQ,
          victimQ := emptyWSQ, victimIsCore := true } 1) 2)).1 = some 1) := by
  refine ⟨rfl, ?_, by decide⟩
  rfl

/-- Claim C7, amended: work items that reach a core's queue are dequeued
by that core's worker in enqueue order (modulo stealing) — for any
sequential mix of enqueues and dequeues the successfully dequeued items
are exactly the first `k` enqueued items, in enqueue order.  However,
`schedule_fifo` holds the most recently scheduled item in the
thread-local `next_work` slot and `get_work` serves that item first (for
up to `BATCH_SIZE` consecutive calls), so the last-scheduled item can
run before items scheduled earlier by the same producer that were
already flushed to the queue. -/
theorem c7_queue_fifo :
    (∀ ops : List Bool, ∃ k, (wsqRun emptyWSQ 0 ops).2 = List.range' 1 k)
    ∧ (∀ (w : Worker) (x : Nat), w.nextWork = some x → w.batch ≠ 0 →
        (getWork w).1 = some x) := by
  constructor
  · intro ops
    obtain ⟨k', m', _, _, hout⟩ := wsqRun_fifo ops emptyWSQ 0 0 wsqInv_empty
    exact ⟨k', by simpa using hout⟩
  · intro w x hx hb
    obtain ⟨nw, bt, fl, cq, vq, vic⟩ := w
    simp only at hx hb
    subst hx
    have hcond : ((some x).isSome && (bt != 0)) = true := by
      simp [hb]
    unfold getWork
    rw [hcond]
    rfl

/-- Claim C7 witness: the queue-level FIFO at a concrete operation
sequence, and the batched thread-local fast path at a concrete
worker. -/
theorem c7_queue_fifo_witness :
    (∃ k, (wsqRun emptyWSQ 0 [true, true, false, false, false]).2 = List.range' 1 k)
    ∧ (getWork { nextWork := some 5, batch := 3, flag := false, coreQ := emptyWSQ,
                 victimQ := emptyWSQ, victimIsCore := true }).1 = some 5 :=
  ⟨c7_queue_fifo.1 [true, true, false, false, false],
   c7_queue_fifo.2 _ 5 rfl (by decide)⟩

/-! ## Claim C3 -/

theorem phase3_fold_marks (chains : List ChainInfo) :
    ∀ (st : SlotAssoc × List Ev), (∀ e ∈ st.2, isMark e = true) →
      ∀ e ∈ (chains.foldl
        (fun st ci =>
          let r := phase3Chain st.1 ci
          (r.1, st.2 ++ [r.2])) st).2, isMark e = true := by
  induction chains with
  | nil => intro st h e he; exact h e he
  | cons ci rest ih =>
    intro st h e he
    refine ih _ ?_ e he
    intro e' he'
    simp only [List.mem_append, List.mem_singleton] at he'
    rcases he' with he' | rfl
    · exact h e' he'
    · unfold phase3Chain
      split <;> rfl

theorem phase3_marks (slots : SlotAssoc) (chains : List ChainInfo) :
    ∀ e ∈ (phase3 slots chains).2, isMark e = true := by
  unfold phase3
  refine phase3_fold_marks chains (slots, []) ?_
  intro e h
  simp at h

theorem phase4Chain_evs (w : World) (slots : SlotAssoc) (ec : List Nat)
    (ci : ChainInfo) :
    ∀ e ∈ (phase4Chain w slots ec ci).2.2.1, isMark e = false ∧ isPush e = false := by
  have hform : ∃ a b c,
      (phase4Chain w slots ec ci).2.2.1
        = List.replicate a (Ev.rcAcquire c) ++ List.replicate b (Ev.rcRelease c) := by
    simp only [phase4Chain]
    repeat' split
    all_goals exact ⟨_, _, _, rfl⟩
  obtain ⟨a, b, c, hform⟩ := hform
  rw [hform]
  intro e he
  simp only [List.mem_append] at he
  rcases he with he | he
  · rw [List.eq_of_mem_replicate he]
    exact ⟨rfl, rfl⟩
  · rw [List.eq_of_mem_replicate he]
    exact ⟨rfl, rfl⟩

theorem phase4_fold_evs (chains : List ChainInfo) (slots : SlotAssoc) :
    ∀ (st : World × List Nat × List Ev × List RcLedger),
      (∀ e ∈ st.2.2.1, isMark e = false ∧ isPush e = false) →
      ∀ e ∈ (chains.foldl
        (fun st ci =>
          let r := phase4Chain st.1 slots st.2.1 ci
          (r.1, r.2.1, st.2.2.1 ++ r.2.2.1, st.2.2.2 ++ [r.2.2.2])) st).2.2.1,
        isMark e = false ∧ isPush e = false := by
  induction chains with
  | nil => intro st h e he; exact h e he
  | cons ci rest ih =>
    intro st h e he
    refine ih _ ?_ e he
    intro e' he'
    simp only [List.mem_append] at he'
    rcases he' with he' | he'
    · exact h e' he'
    · exact phase4Chain_evs _ _ _ _ e' he'

theorem phase4_evs (w : World) (slots : SlotAssoc) (ec : List Nat)
    (chains : List ChainInfo) :
    ∀ e ∈ (phase4 w slots ec chains).2.2.1, isMark e = false ∧ isPush e = false := by
  unfold phase4
  refine phase4_fold_evs chains slots (w, ec, [], []) ?_
  intro e h
  simp at h

theorem phase5_pushes (bodies : List BodyData) (ec : List Nat) :
    ∀ e ∈ (phase5 bodies ec).2, isPush e = true ∧ isMark e = false := by
  intro e he
  unfold phase5 at he
  simp only [List.mem_flatten, List.mem_map] at he
  obtain ⟨l, ⟨x, ⟨p, hp, hfx⟩, hxl⟩, hel⟩ := he
  subst hfx
  simp only at hxl
  subst hxl
  by_cases hr : (resolveStep p.2.execCountDown (ec.getD p.1 0)).2
  · rw [if_pos hr] at hel
    simp only [List.mem_singleton] at hel
    subst hel
    exact ⟨rfl, rfl⟩
  · rw [if_neg hr] at hel
    simp at hel

theorem kinds_lt (l l₁ l₂ : List Ev) (heq : l = l₁ ++ l₂)
    (h1 : ∀ e ∈ l₁, isPush e = false) (h2 : ∀ e ∈ l₂, isMark e = false) :
    ∀ i j (hi : i < l.length) (hj : j < l.length),
      isMark (l.get ⟨i, hi⟩) = true → isPush (l.get ⟨j, hj⟩) = true → i < j := by
  subst heq
  intro i j hi hj hm hp
  have hi1 : i < l₁.length := by
    by_contra hcon
    push_neg at hcon
    have hmem : (l₁ ++ l₂).get ⟨i, hi⟩ ∈ l₂ := by
      rw [List.get_eq_getElem, List.getElem_append_right hcon]
      exact List.getElem_mem _
    rw [h2 _ hmem] at hm
    cases hm
  have hj1 : l₁.length ≤ j := by
    by_contra hcon
    push_neg at hcon
    have hmem : (l₁ ++ l₂).get ⟨j, hj⟩ ∈ l₁ := by
      rw [List.get_eq_getElem, List.getElem_append_left hcon]
      exact List.getElem_mem _
    rw [h1 _ hmem] at hp
    cases hp
  omega

theorem scheduleMany_evs_decomp (bodies : List BodyData) (w : World) :
    ∃ l₁ l₂, (scheduleMany bodies w).evs = l₁ ++ l₂
      ∧ (∀ e ∈ l₁, isPush e = false) ∧ (∀ e ∈ l₂, isMark e = false) := by
  refine ⟨_, _, rfl, ?_, ?_⟩
  · intro e he
    simp only [List.mem_append] at he
    rcases he with he | he
    · have := phase3_marks _ _ e he
      cases e <;> simp [isMark, isPush] at this ⊢
    · exact (phase4_evs _ _ _ _ e he).2
  · intro e he
    exact (phase5_pushes _ _ e he).2

/-- Claim C3: a `BehaviourCore` with `count` slots initialises
`exec_count_down` to `count + 1`; its `Work` becomes runnable (is
pushed) by a `resolve(n)` call exactly when the remaining count equals
`n`, i.e. when the countdown would reach 0 (the final decrement being
elided); and in `schedule_many` every push of a behaviour's `Work`
occurs strictly after the release phase has finished marking the chain
tails Ready or ReadAvailable: in the event trace, every tail-mark event
precedes every push event. -/
theorem c3_countdown_release_order :
    (∀ count, mkExecCountDown count = count + 1)
    ∧ (∀ ecd n, (resolveStep ecd n).2 = true ↔ ecd = n)
    ∧ (∀ (bodies : List BodyData) (w : World) (i j : Nat)
        (hi : i < (scheduleMany bodies w).evs.length)
        (hj : j < (scheduleMany bodies w).evs.length),
        isMark ((scheduleMany bodies w).evs.get ⟨i, hi⟩) = true →
        isPush ((scheduleMany bodies w).evs.get ⟨j, hj⟩) = true →
        i < j) := by
  refine ⟨fun _ => rfl, ?_, ?_⟩
  · intro ecd n
    unfold resolveStep
    by_cases h : ecd = n <;> simp [h]
  · intro bodies w
    obtain ⟨l₁, l₂, heq, h1, h2⟩ := scheduleMany_evs_decomp bodies w
    exact kinds_lt _ l₁ l₂ heq h1 h2

/-- Claim C3 witness: in the `when(a, a)` example the trace has the
tail-mark at index 0 and the push at index 2. -/
theorem c3_countdown_release_order_witness :
    mkExecCountDown 2 = 3 ∧ (0 : Nat) < 2 := by
  have h := c3_countdown_release_order
  have hi : 0 < (scheduleMany exampleBodies exampleWorld).evs.length := by decide
  have hj : 2 < (scheduleMany exampleBodies exampleWorld).evs.length := by decide
  exact ⟨h.1 2, h.2.2 exampleBodies exampleWorld 0 2 hi hj rfl rfl⟩

/-! ## Claims C1 and C2: the phase-1 walk -/

theorem takeMove_cown (d : SlotData) : (takeMove d).2.cown = d.cown := by
  unfold takeMove; split <;> rfl

theorem takeMove_move (d : SlotData) : (takeMove d).2.move = false := by
  unfold takeMove
  split
  · rfl
  · rename_i h; simpa using h

theorem takeMove_fst (d : SlotData) : (takeMove d).1 = if d.move then 1 else 0 := by
  unfold takeMove; split <;> simp_all

theorem takeMove_idem (d : SlotData) : (takeMove (takeMove d).2).1 = 0 := by
  rw [takeMove_fst, takeMove_move]
  rfl

theorem ecInc_length (ec : List Nat) (i : Nat) : (ecInc ec i).length = ec.length := by
  simp [ecInc]

theorem ecInc_getD_self (ec : List Nat) (i : Nat) (h : i < ec.length) :
    (ecInc ec i).getD i 0 = ec.getD i 0 + 1 := by
  simp [ecInc, List.getD_eq_getElem?_getD, List.getElem?_set_self, h,
    List.getElem?_eq_getElem]

theorem ecInc_getD_ne (ec : List Nat) (i j : Nat) (h : ¬ i = j) :
    (ecInc ec i).getD j 0 = ec.getD j 0 := by
  simp [ecInc, List.getD_eq_getElem?_getD, List.getElem?_set_ne h]

theorem transferSum_append (l₁ l₂ : List ChainInfo) :
    transferSum (l₁ ++ l₂) = transferSum l₁ + transferSum l₂ := by
  induction l₁ with
  | nil => simp [transferSum]
  | cons c rest ih => simp [transferSum, ih]; omega

theorem transferSum_map (l : List ChainInfo) :
    transferSum l = (l.map ChainInfo.transfer).sum := by
  induction l with
  | nil => rfl
  | cons c rest ih => simp [transferSum, ih]

theorem setCownNull_proj (d : SlotData) :
    (setCownNull d).cown = none ∧ (setCownNull d).move = false := ⟨rfl, rfl⟩

theorem walkStep_none (acc : WalkAcc) (e : Entry) (h : acc.oc = none) :
    walkStep acc e = { acc with oc := some (startChain e) } := by
  unfold walkStep; rw [h]

theorem walkStep_dup (acc : WalkAcc) (o : OpenChain) (e : Entry)
    (hoc : acc.oc = some o) (hsame : e.data.cown = some o.cown)
    (hdup : e.bodyIdx = o.body) :
    walkStep acc e =
      { acc with
        oc := some
          { o with
            transfer := o.transfer + (takeMove e.data).1 + (takeMove (takeMove e.data).2).1 },
        ec := ecInc acc.ec e.bodyIdx,
        done := acc.done ++
          [((e.bodyIdx, e.slotIdx), setCownNull (takeMove (takeMove e.data).2).2)] } := by
  unfold walkStep chainExtend
  rw [hoc]
  simp only [if_pos hsame]
  rw [if_pos (show e.bodyIdx = _ from hdup)]

theorem walkStep_extend (acc : WalkAcc) (o : OpenChain) (e : Entry)
    (hoc : acc.oc = some o) (hsame : e.data.cown = some o.cown)
    (hdup : ¬ e.bodyIdx = o.body) :
    ∃ (flushedVal : SlotData) (newO : OpenChain),
      walkStep acc e =
        { acc with
          oc := some newO,
          done := acc.done ++ [(o.currId, flushedVal)] }
      ∧ flushedVal.cown = o.curr.cown ∧ flushedVal.move = o.curr.move
      ∧ newO.cown = o.cown ∧ newO.body = e.bodyIdx
      ∧ newO.currId = (e.bodyIdx, e.slotIdx)
      ∧ newO.curr = (takeMove e.data).2
      ∧ newO.transfer = o.transfer + (takeMove e.data).1 := by
  unfold walkStep chainExtend
  rw [hoc]
  simp only [if_pos hsame]
  rw [if_neg (show ¬ e.bodyIdx = _ from hdup)]
  split_ifs <;> exact ⟨_, _, rfl, rfl, rfl, rfl, rfl, rfl, rfl, rfl⟩

theorem walkStep_close (acc : WalkAcc) (o : OpenChain) (e : Entry)
    (hoc : acc.oc = some o) (hdiff : ¬ e.data.cown = some o.cown) :
    walkStep acc e =
      { acc with
        done := acc.done ++ [(closeChain o).1],
        chains := acc.chains ++ [(closeChain o).2],
        oc := some (startChain e) } := by
  unfold walkStep
  rw [hoc]
  simp only [if_neg hdiff]

theorem closeChain_facts (o : OpenChain) (h : OCInv o) :
    cownProj (closeChain o).1 = (o.currId, some o.cown)
    ∧ (closeChain o).1.2.move = false
    ∧ (closeChain o).2.transfer = o.transfer := by
  obtain ⟨h1, h2, h3⟩ := h
  unfold closeChain
  split_ifs <;> simp [cownProj, h1, h3]

theorem startChain_facts (e : Entry) (c : Nat) (hc : e.data.cown = some c) :
    ocKey (some (startChain e)) = entryCB e
    ∧ OCInv (startChain e)
    ∧ ocPend (some (startChain e)) = [((e.bodyIdx, e.slotIdx), e.data.cown)]
    ∧ (startChain e).transfer = (if e.data.move then 1 else 0)
    ∧ (startChain e).body = e.bodyIdx := by
  have hcown : (takeMove e.data).2.cown = some c := by rw [takeMove_cown]; exact hc
  refine ⟨?_, ⟨?_, rfl, ?_⟩, ?_, ?_, rfl⟩
  · simp [ocKey, startChain, entryCB, hcown, hc]
  · simp [startChain, hcown]
  · exact takeMove_move e.data
  · simp [ocPend, startChain, hcown, hc]
  · simp [startChain, takeMove_fst]

theorem mcoe_append_single {α : Type} (A : List α) (x : α) :
    ((A ++ [x] : List α) : Multiset α) = ↑A + {x} := rfl

theorem mcoe_cons {α : Type} (x : α) (T : List α) :
    ((x :: T : List α) : Multiset α) = {x} + ↑T := rfl

theorem ocTransfer_some (o : OpenChain) : ocTransfer (some o) = o.transfer := rfl

theorem ocPend_some (o : OpenChain) : ocPend (some o) = [(o.currId, some o.cown)] := rfl

theorem ocKey_some (o : OpenChain) : ocKey (some o) = (some o.cown, o.body) := rfl

/-- Master induction over the phase-1 walk: relative to any accumulator
whose open chain satisfies `OCInv`, finishing the walk (a) appends to
`done` exactly the pending slot plus one slot per remaining entry, with
the cown pointer nulled exactly on the entries that repeat the previous
(cown, behaviour) key; (b) preserves the length of `ec`; (c) bumps
`ec[bi]` once per such nulled duplicate of behaviour `bi`; (d) adds to
the chains' transfer sum the open chain's count plus one per MOVE flag;
and (e) keeps every flushed slot's MOVE flag clear. -/
theorem walk_master (es : List Entry) :
    ∀ acc : WalkAcc,
      (∀ e ∈ es, e.data.cown ≠ none) →
      (∀ o, acc.oc = some o → OCInv o) →
      (∀ e ∈ es, e.bodyIdx < acc.ec.length) →
      ((((walkFinish (es.foldl walkStep acc)).done.map cownProj :
            List ((Nat × Nat) × Option Nat)) : Multiset ((Nat × Nat) × Option Nat))
          = ↑(acc.done.map cownProj) + ↑(ocPend acc.oc)
            + ↑(expectedFrom (ocKey acc.oc) es))
      ∧ (walkFinish (es.foldl walkStep acc)).ec.length = acc.ec.length
      ∧ (∀ bi, (walkFinish (es.foldl walkStep acc)).ec.getD bi 0
          = acc.ec.getD bi 0
            + ((expectedFrom (ocKey acc.oc) es).filter
                (fun p => p.1.1 == bi && p.2 == none)).length)
      ∧ transferSum (walkFinish (es.foldl walkStep acc)).chains
          = transferSum acc.chains + ocTransfer acc.oc
            + es.countP (fun e => e.data.move)
      ∧ ((∀ p ∈ acc.done, p.2.move = false) →
          ∀ p ∈ (walkFinish (es.foldl walkStep acc)).done, p.2.move = false) := by
  induction es with
  | nil =>
    intro acc hcowns hoc hbound
    obtain ⟨dn, oc, ch, ec⟩ := acc
    cases oc with
    | none =>
      exact ⟨by simp [walkFinish, ocPend, expectedFrom, ocKey], rfl,
        by simp [walkFinish, expectedFrom, ocKey],
        by simp [walkFinish, ocTransfer],
        fun h => by simpa [walkFinish] using h⟩
    | some o =>
      have hOI : OCInv o := hoc o rfl
      obtain ⟨hproj, hmove, htrans⟩ := closeChain_facts o hOI
      refine ⟨?_, rfl, ?_, ?_, ?_⟩
      · simp [walkFinish, ocPend, expectedFrom, ocKey, hproj]
        exact Multiset.coe_add _ _
      · intro bi
        simp [walkFinish, expectedFrom, ocKey]
      · simp [walkFinish, ocTransfer, transferSum_append, transferSum, htrans]
      · intro h p hp
        simp only [List.foldl_nil, walkFinish, List.mem_append, List.mem_singleton] at hp
        rcases hp with hp | hp
        · exact h p hp
        · rw [hp]; exact hmove
  | cons e rest ih =>
    intro acc hcowns hoc hbound
    have hce : e.data.cown ≠ none := hcowns e (List.mem_cons_self e rest)
    obtain ⟨c, hc⟩ := Option.ne_none_iff_exists'.mp hce
    have hebound : e.bodyIdx < acc.ec.length := hbound e (List.mem_cons_self e rest)
    cases hocE : acc.oc with
    | none =>
      rw [List.foldl_cons, walkStep_none acc e hocE]
      obtain ⟨hkey, hinv, hpend, htr, hbody⟩ := startChain_facts e c hc
      obtain ⟨ih1, ih2, ih3, ih4, ih5⟩ :=
        ih { acc with oc := some (startChain e) }
          (fun x hx => hcowns x (List.mem_cons_of_mem _ hx))
          (fun o' ho' => by
            have h' : startChain e = o' := by simpa using ho'
            exact h' ▸ hinv)
          (fun x hx => hbound x (List.mem_cons_of_mem _ hx))
      dsimp only [] at ih1 ih2 ih3 ih4 ih5
      rw [hkey] at ih1 ih3
      rw [hpend] at ih1
      refine ⟨?_, ih2, ?_, ?_, ih5⟩
      · rw [ih1]
        simp [ocPend, ocKey, expectedFrom, entryCB, hc, Multiset.coe_add]
        simp [add_comm, add_left_comm, add_assoc]
      · intro bi
        rw [ih3 bi]
        simp [ocKey, expectedFrom, entryCB, hc, List.filter_cons]
      · rw [ih4]
        simp [ocTransfer, htr, List.countP_cons, ocKey]
        omega
    | some o =>
      have hOI : OCInv o := hoc o hocE
      by_cases hsame : e.data.cown = some o.cown
      · by_cases hdup : e.bodyIdx = o.body
        · -- duplicate slot of the same behaviour
          rw [List.foldl_cons, walkStep_dup acc o e hocE hsame hdup]
          obtain ⟨ih1, ih2, ih3, ih4, ih5⟩ :=
            ih { acc with
                  oc := some
                    { o with
                      transfer := o.transfer + (takeMove e.data).1 + (takeMove (takeMove e.data).2).1 },
                  ec := ecInc acc.ec e.bodyIdx,
                  done := acc.done ++
                    [((e.bodyIdx, e.slotIdx), setCownNull (takeMove (takeMove e.data).2).2)] }
              (fun x hx => hcowns x (List.mem_cons_of_mem _ hx))
              (fun o' ho' => by
                have h' :
                    ({ o with
                       transfer :=
                         o.transfer + (takeMove e.data).1 + (takeMove (takeMove e.data).2).1 } :
                      OpenChain) = o' := by
                  simpa using ho'
                exact h' ▸ ⟨hOI.1, hOI.2.1, hOI.2.2⟩)
              (fun x hx =>
                lt_of_lt_of_eq (hbound x (List.mem_cons_of_mem _ hx))
                  (ecInc_length acc.ec e.bodyIdx).symm)
          dsimp only [] at ih1 ih2 ih3 ih4 ih5
          refine ⟨?_, ?_, ?_, ?_, ?_⟩
          · rw [ih1]
            simp [ocPend_some, ocKey_some, expectedFrom, entryCB, hsame, hdup, cownProj,
              setCownNull, Multiset.coe_add]
            rw [mcoe_append_single, mcoe_cons]
            abel
          · rw [ih2]
            exact ecInc_length acc.ec e.bodyIdx
          · intro bi
            rw [ih3 bi]
            by_cases hbi : e.bodyIdx = bi
            · rw [← hbi, ecInc_getD_self acc.ec e.bodyIdx hebound]
              simp [ocKey, expectedFrom, entryCB, hsame, hdup, List.filter_cons]
              omega
            · rw [ecInc_getD_ne acc.ec e.bodyIdx bi hbi]
              have hbi' : ¬ o.body = bi := fun hh => hbi (hdup.trans hh)
              simp [ocKey_some, expectedFrom, entryCB, hsame, hdup, List.filter_cons, hbi']
          · rw [ih4]
            simp [ocTransfer_some, takeMove_idem, takeMove_fst, takeMove_move,
              List.countP_cons]
            omega
          · intro h
            apply ih5
            intro p hp
            simp only [List.mem_append, List.mem_singleton] at hp
            rcases hp with hp | hp
            · exact h p hp
            · rw [hp]; rfl
        · -- same cown, different behaviour: extend the chain
          obtain ⟨fv, nO, heq, hfc, hfm, hnc, hnb, hni, hncur, hntr⟩ :=
            walkStep_extend acc o e hocE hsame hdup
          rw [List.foldl_cons, heq]
          obtain ⟨ih1, ih2, ih3, ih4, ih5⟩ :=
            ih { acc with
                  oc := some nO,
                  done := acc.done ++ [(o.currId, fv)] }
              (fun x hx => hcowns x (List.mem_cons_of_mem _ hx))
              (fun o' ho' => by
                have h' : nO = o' := by simpa using ho'
                refine h' ▸ ⟨?_, ?_, ?_⟩
                · rw [hncur, takeMove_cown, hsame, hnc]
                · rw [hni, hnb]
                · rw [hncur]; exact takeMove_move _)
              (fun x hx => hbound x (List.mem_cons_of_mem _ hx))
          dsimp only [] at ih1 ih2 ih3 ih4 ih5
          have hkeyN : ocKey (some nO) = entryCB e := by
            simp [ocKey, entryCB, hnc, hnb, hsame]
          rw [hkeyN] at ih1 ih3
          refine ⟨?_, ih2, ?_, ?_, ?_⟩
          · rw [ih1]
            simp [ocPend_some, ocKey_some, expectedFrom, entryCB, hsame, cownProj, hfc,
              hOI.1, hni, hnc, Multiset.coe_add, hdup]
            rw [mcoe_append_single, mcoe_cons]
            abel
          · intro bi
            rw [ih3 bi]
            simp [ocKey_some, expectedFrom, entryCB, hsame, List.filter_cons, hdup]
          · rw [ih4]
            simp [ocTransfer_some, hntr, takeMove_fst, List.countP_cons]
            omega
          · intro h
            apply ih5
            intro p hp
            simp only [List.mem_append, List.mem_singleton] at hp
            rcases hp with hp | hp
            · exact h p hp
            · rw [hp]
              show fv.move = false
              rw [hfm]; exact hOI.2.2
      · -- different cown: close this chain, start a new one
        rw [List.foldl_cons, walkStep_close acc o e hocE hsame]
        obtain ⟨hproj, hmove, htrans⟩ := closeChain_facts o hOI
        obtain ⟨hkey, hinv, hpend, htr, hbody⟩ := startChain_facts e c hc
        obtain ⟨ih1, ih2, ih3, ih4, ih5⟩ :=
          ih { acc with
                done := acc.done ++ [(closeChain o).1],
                chains := acc.chains ++ [(closeChain o).2],
                oc := some (startChain e) }
            (fun x hx => hcowns x (List.mem_cons_of_mem _ hx))
            (fun o' ho' => by
              have h' : startChain e = o' := by simpa using ho'
              exact h' ▸ hinv)
            (fun x hx => hbound x (List.mem_cons_of_mem _ hx))
        dsimp only [] at ih1 ih2 ih3 ih4 ih5
        rw [hkey] at ih1 ih3
        rw [hpend] at ih1
        have hne : ¬((e.data.cown, e.bodyIdx) = (some o.cown, o.body)) := by
          intro hcontra
          exact hsame (by
            have := congrArg Prod.fst hcontra
            simpa using this)
        refine ⟨?_, ih2, ?_, ?_, ?_⟩
        · rw [ih1]
          have hco : ¬ c = o.cown := fun hh => hsame (by rw [hc, hh])
          simp [ocPend_some, ocKey_some, expectedFrom, entryCB, hc, hproj, hco,
            Multiset.coe_add]
          rw [mcoe_append_single, mcoe_cons]
          abel
        · intro bi
          rw [ih3 bi]
          have hco : ¬ c = o.cown := fun hh => hsame (by rw [hc, hh])
          simp [ocKey_some, expectedFrom, entryCB, hc, List.filter_cons, hco]
        · rw [ih4]
          simp [ocTransfer_some, htr, htrans, List.countP_cons, transferSum_append,
            transferSum]
          omega
        · intro h
          apply ih5
          intro p hp
          simp only [List.mem_append, List.mem_singleton] at hp
          rcases hp with hp | hp
          · exact h p hp
          · rw [hp]; exact hmove

theorem slotEntries_mem (slots : List SlotData) :
    ∀ (i j : Nat) (e : Entry), e ∈ slotEntries i j slots →
      e.bodyIdx = i ∧ e.data ∈ slots := by
  induction slots with
  | nil => intro i j e h; simp [slotEntries] at h
  | cons d rest ihs =>
    intro i j e h
    rw [slotEntries] at h
    rcases List.mem_cons.mp h with h | h
    · rw [h]; exact ⟨rfl, List.mem_cons_self _ _⟩
    · obtain ⟨h1, h2⟩ := ihs i (j + 1) e h
      exact ⟨h1, List.mem_cons_of_mem _ h2⟩

theorem buildEntriesAux_mem :
    ∀ (bs : List BodyData) (i : Nat) (e : Entry), e ∈ buildEntriesAux i bs →
      (∃ b ∈ bs, e.data ∈ b.slots) ∧ i ≤ e.bodyIdx ∧ e.bodyIdx < i + bs.length := by
  intro bs
  induction bs with
  | nil => intro i e h; simp [buildEntriesAux] at h
  | cons b rest ihb =>
    intro i e h
    rw [buildEntriesAux] at h
    rcases List.mem_append.mp h with h | h
    · obtain ⟨h1, h2⟩ := slotEntries_mem b.slots i 0 e h
      exact ⟨⟨b, List.mem_cons_self _ _, h2⟩, by omega, by simp; omega⟩
    · obtain ⟨⟨b', hb', hd⟩, h1, h2⟩ := ihb (i + 1) e h
      exact ⟨⟨b', List.mem_cons_of_mem _ hb', hd⟩, by omega, by simp at h2 ⊢; omega⟩

theorem slotEntries_countP (bi : Nat) (q : SlotData → Bool) (slots : List SlotData) :
    ∀ (i j : Nat),
      (slotEntries i j slots).countP (fun e => e.bodyIdx == bi && q e.data)
        = if bi = i then slots.countP q else 0 := by
  induction slots with
  | nil => intro i j; simp [slotEntries]
  | cons d rest ihs =>
    intro i j
    rw [slotEntries, List.countP_cons, ihs i (j + 1), List.countP_cons]
    by_cases h : bi = i <;> (simp [h]; try omega)

theorem slotEntries_countP_data (q : SlotData → Bool) (slots : List SlotData) :
    ∀ (i j : Nat),
      (slotEntries i j slots).countP (fun e => q e.data) = slots.countP q := by
  induction slots with
  | nil => intro i j; simp [slotEntries]
  | cons d rest ihs =>
    intro i j
    rw [slotEntries, List.countP_cons, ihs i (j + 1), List.countP_cons]

theorem buildEntriesAux_countP (bi : Nat) (q : SlotData → Bool) :
    ∀ (bs : List BodyData) (i : Nat),
      (buildEntriesAux i bs).countP (fun e => e.bodyIdx == bi && q e.data)
        = if i ≤ bi ∧ bi - i < bs.length
          then (bs.getD (bi - i) ⟨[], 0⟩).slots.countP q else 0 := by
  intro bs
  induction bs with
  | nil => intro i; simp [buildEntriesAux]
  | cons b rest ihb =>
    intro i
    rw [buildEntriesAux, List.countP_append, slotEntries_countP bi q b.slots i 0, ihb (i + 1)]
    rcases Nat.lt_trichotomy bi i with h | h | h
    · rw [if_neg (by omega), if_neg (by omega), if_neg (by omega)]
    · rw [if_pos h, if_neg (show ¬(i + 1 ≤ bi ∧ bi - (i + 1) < rest.length) by omega),
        if_pos (show i ≤ bi ∧ bi - i < (b :: rest).length by simp; omega)]
      have hz : bi - i = 0 := by omega
      rw [hz]
      simp
    · rw [if_neg (by omega)]
      by_cases h2 : bi - i < rest.length + 1
      · rw [if_pos (by omega), if_pos (by simp; omega)]
        have hk : bi - i = (bi - (i + 1)) + 1 := by omega
        rw [hk, List.getD_cons_succ]
        omega
      · rw [if_neg (by omega), if_neg (by simp; omega)]

theorem buildEntriesAux_countP_data (q : SlotData → Bool) :
    ∀ (bs : List BodyData) (i : Nat),
      (buildEntriesAux i bs).countP (fun e => q e.data)
        = (bs.map (fun b => b.slots.countP q)).sum := by
  intro bs
  induction bs with
  | nil => intro i; simp [buildEntriesAux]
  | cons b rest ihb =>
    intro i
    rw [buildEntriesAux, List.countP_append, slotEntries_countP_data q b.slots i 0, ihb (i + 1)]
    simp

theorem totalMoves_eq (bs : List BodyData) :
    totalMoves bs = (bs.map (fun b => b.slots.countP (fun s => s.move))).sum := by
  induction bs with
  | nil => rfl
  | cons b rest ihb => rw [totalMoves, ihb]; simp

theorem expectedFrom_countP_keep (bi c : Nat) :
    ∀ (es : List Entry) (pk : Option Nat × Nat),
      (expectedFrom pk es).countP (fun p => p.1.1 == bi && p.2 == some c)
        = keptIn pk bi c es := by
  intro es
  induction es with
  | nil => intro pk; simp [expectedFrom, keptIn]
  | cons e rest ihe =>
    intro pk
    rw [expectedFrom, List.countP_cons, ihe (entryCB e), keptIn]
    by_cases hd : entryCB e = pk
    · simp [hd]
    · by_cases hin : e.bodyIdx = bi ∧ e.data.cown = some c
      · simp [hd, hin.1, hin.2]
        omega
      · simp [hd]
        omega

/-- In a sorted entry list all entries of one (cown, behaviour) group are
consecutive, so the walk keeps exactly one of them — none if the group
continues a run begun before the list. -/
theorem keptIn_sorted (bi c : Nat) :
    ∀ (es : List Entry), es.Pairwise keyLE →
      (∀ e ∈ es, e.data.cown ≠ none) →
      ∀ pk : Option Nat × Nat,
        (pk = (none, 0) ∨ ∃ pe : Entry, pe.data.cown ≠ none ∧ pk = entryCB pe ∧
          ∀ e ∈ es, keyLE pe e) →
        keptIn pk bi c es =
          if es.countP (fun e => e.bodyIdx == bi && e.data.cown == some c) = 0 then 0
          else if pk = (some c, bi) then 0 else 1 := by
  intro es
  induction es with
  | nil => intro _ _ pk _; simp [keptIn]
  | cons e rest ihr =>
    intro hs hcn pk hpk
    obtain ⟨hse, hsr⟩ := List.pairwise_cons.mp hs
    have hcne : e.data.cown ≠ none := hcn e (List.mem_cons_self _ _)
    have hrest := ihr hsr (fun x hx => hcn x (List.mem_cons_of_mem _ hx)) (entryCB e)
      (Or.inr ⟨e, hcne, rfl, hse⟩)
    rw [keptIn, hrest, List.countP_cons]
    by_cases hin : e.bodyIdx = bi ∧ e.data.cown = some c
    · have hCB : entryCB e = (some c, bi) := by
        simp [entryCB, hin.1, hin.2]
      by_cases hd : entryCB e = pk
      · subst hd
        simp [hCB, hin.1, hin.2]
      · have hpk' : ¬ pk = (some c, bi) := fun hh => hd (hCB.trans hh.symm)
        have hd' : ¬ (some c, bi) = pk := fun hh => hd (hCB.trans hh)
        simp [hCB, hd, hin.1, hin.2, hpk', hd']
    · have hCBne : entryCB e ≠ (some c, bi) := by
        intro hh
        have h1 : e.data.cown = some c := congrArg Prod.fst hh
        have h2 : e.bodyIdx = bi := congrArg Prod.snd hh
        exact hin ⟨h2, h1⟩
      have hpe : (e.bodyIdx == bi && e.data.cown == some c) = false := by
        simp
        intro h1 h2
        exact absurd ⟨h1, h2⟩ hin
      by_cases hA : rest.countP (fun x => x.bodyIdx == bi && x.data.cown == some c) = 0
      · simp [hA, hpe, hin]
      · have hpk2 : ¬ pk = (some c, bi) := by
          intro hpkeq
          rcases hpk with h0 | ⟨pe, hpec, hpkCB, hple⟩
          · rw [h0] at hpkeq; simp at hpkeq
          · obtain ⟨g, hg, hpg⟩ := List.countP_pos_iff.mp (Nat.pos_of_ne_zero hA)
            have hCBpe : entryCB pe = (some c, bi) := hpkCB.symm.trans hpkeq
            have hpc : pe.data.cown = some c := congrArg Prod.fst hCBpe
            have hpb : pe.bodyIdx = bi := congrArg Prod.snd hCBpe
            simp at hpg
            have h1 := hple e (List.mem_cons_self _ _)
            have h2 := hse g hg
            obtain ⟨ce, hce⟩ := Option.ne_none_iff_exists'.mp hcne
            have e1 : (entryKey pe).1 = c := by simp [entryKey, hpc]
            have e2 : (entryKey pe).2.1 = bi := by simp [entryKey, hpb]
            have e3 : (entryKey g).1 = c := by simp [entryKey, hpg.2]
            have e4 : (entryKey g).2.1 = bi := by simp [entryKey, hpg.1]
            have e5 : (entryKey e).1 = ce := by simp [entryKey, hce]
            have e6 : (entryKey e).2.1 = e.bodyIdx := rfl
            unfold keyLE at h1 h2
            have hcee : ce = c ∧ e.bodyIdx = bi := by omega
            exact hin ⟨hcee.2, by rw [hce, hcee.1]⟩
        simp [hA, hpe, hin, hpk2, hCBne]

theorem phase2Chain_keep (w : World) (slots : SlotAssoc) (ci : ChainInfo) :
    (phase2Chain w slots ci).2.2.cown = ci.cown ∧
      (phase2Chain w slots ci).2.2.transfer = ci.transfer := by
  simp only [phase2Chain]
  repeat' split
  all_goals exact ⟨rfl, rfl⟩

theorem phase2_fold_keep (chains : List ChainInfo) :
    ∀ (st : World × SlotAssoc × List ChainInfo),
      ((chains.foldl
          (fun st ci =>
            let r := phase2Chain st.1 st.2.1 ci
            (r.1, r.2.1, st.2.2 ++ [r.2.2])) st).2.2).map
        (fun ci => (ci.cown, ci.transfer))
      = (st.2.2).map (fun ci => (ci.cown, ci.transfer))
          ++ chains.map (fun ci => (ci.cown, ci.transfer)) := by
  induction chains with
  | nil => intro st; simp
  | cons ci rest ih =>
    intro st
    rw [List.foldl_cons, ih]
    obtain ⟨h1, h2⟩ := phase2Chain_keep st.1 st.2.1 ci
    simp [h1, h2]

theorem phase2_keep (w : World) (slots : SlotAssoc) (chains : List ChainInfo) :
    ((phase2 w slots chains).2.2).map (fun ci => (ci.cown, ci.transfer))
      = chains.map (fun ci => (ci.cown, ci.transfer)) := by
  unfold phase2
  rw [phase2_fold_keep chains (w, slots, [])]
  simp

theorem phase4Chain_ledger (w : World) (slots : SlotAssoc) (ec : List Nat)
    (ci : ChainInfo) :
    (phase4Chain w slots ec ci).2.2.2 = phase4Ledger ci := by
  simp only [phase4Chain, phase4Ledger]
  repeat' split
  all_goals rfl

theorem phase4_fold_ledger (chains : List ChainInfo) (slots : SlotAssoc) :
    ∀ (st : World × List Nat × List Ev × List RcLedger),
      (chains.foldl
        (fun st ci =>
          let r := phase4Chain st.1 slots st.2.1 ci
          (r.1, r.2.1, st.2.2.1 ++ r.2.2.1, st.2.2.2 ++ [r.2.2.2])) st).2.2.2
      = st.2.2.2 ++ chains.map phase4Ledger := by
  induction chains with
  | nil => intro st; simp
  | cons ci rest ih =>
    intro st
    rw [List.foldl_cons, ih]
    simp [phase4Chain_ledger]

theorem phase4_ledger_eq (w : World) (slots : SlotAssoc) (ec : List Nat)
    (chains : List ChainInfo) :
    (phase4 w slots ec chains).2.2.2 = chains.map phase4Ledger := by
  unfold phase4
  rw [phase4_fold_ledger chains slots (w, ec, [], [])]
  simp

theorem phase4Ledger_balance (ci : ChainInfo) :
    (phase4Ledger ci).transfer + (phase4Ledger ci).acquires
      = (phase4Ledger ci).required + (phase4Ledger ci).releases := by
  simp only [phase4Ledger, acquireWithTransfer]
  split_ifs <;> simp <;> omega

theorem phase4Ledger_transfer (ci : ChainInfo) :
    (phase4Ledger ci).transfer = ci.transfer := rfl

theorem slotSet_status_move (l : SlotAssoc) (k : Nat × Nat) (st : SlotStatus)
    (h : ∀ p ∈ l, p.2.move = false) :
    ∀ p ∈ slotSet l k (fun d => { d with status := st }), p.2.move = false := by
  intro p hp
  unfold slotSet at hp
  obtain ⟨q, hq, hqe⟩ := List.mem_map.mp hp
  by_cases hqk : (q.1 == k) = true
  · rw [if_pos hqk] at hqe
    rw [← hqe]
    exact h q hq
  · rw [if_neg hqk] at hqe
    rw [← hqe]
    exact h q hq

theorem refSetStatus_move (w : World) (l : SlotAssoc) (r : SlotRef) (st : SlotStatus)
    (h : ∀ p ∈ l, p.2.move = false) :
    ∀ p ∈ (refSetStatus w l r st).2, p.2.move = false := by
  cases r with
  | inl x => exact h
  | inr k => exact slotSet_status_move l k st h

theorem hroe_move (w : World) (l : SlotAssoc) (prev : Option SlotRef)
    (cf : Nat × Nat) (fcrc c : Nat)
    (h : ∀ p ∈ l, p.2.move = false) :
    ∀ p ∈ (handleReadOnlyEnqueue w l prev cf fcrc c).2.1, p.2.move = false := by
  cases prev with
  | none => exact h
  | some pr =>
    delta handleReadOnlyEnqueue
    dsimp only []
    by_cases hst : refStatus w l pr = SlotStatus.ready
    · rw [if_pos hst]
      exact refSetStatus_move _ _ _ _ h
    · rw [if_neg hst]
      exact refSetStatus_move _ _ _ _ h

theorem phase2Chain_move (w : World) (l : SlotAssoc) (ci : ChainInfo)
    (h : ∀ p ∈ l, p.2.move = false) :
    ∀ p ∈ (phase2Chain w l ci).2.1, p.2.move = false := by
  simp only [phase2Chain]
  repeat' split
  all_goals first
    | exact h
    | exact hroe_move _ _ _ _ _ _ h
    | exact refSetStatus_move _ _ _ _ h

theorem phase2_fold_move (chains : List ChainInfo) :
    ∀ (st : World × SlotAssoc × List ChainInfo),
      (∀ p ∈ st.2.1, p.2.move = false) →
      ∀ p ∈ (chains.foldl
          (fun st ci =>
            let r := phase2Chain st.1 st.2.1 ci
            (r.1, r.2.1, st.2.2 ++ [r.2.2])) st).2.1, p.2.move = false := by
  induction chains with
  | nil => intro st h; exact h
  | cons ci rest ih =>
    intro st h
    exact ih _ (phase2Chain_move st.1 st.2.1 ci h)

theorem phase3Chain_move (l : SlotAssoc) (ci : ChainInfo)
    (h : ∀ p ∈ l, p.2.move = false) :
    ∀ p ∈ (phase3Chain l ci).1, p.2.move = false := by
  unfold phase3Chain
  split
  · exact slotSet_status_move _ _ _ h
  · exact slotSet_status_move _ _ _ h

theorem phase3_fold_move (chains : List ChainInfo) :
    ∀ (st : SlotAssoc × List Ev),
      (∀ p ∈ st.1, p.2.move = false) →
      ∀ p ∈ (chains.foldl
          (fun st ci =>
            let r := phase3Chain st.1 ci
            (r.1, st.2 ++ [r.2])) st).1, p.2.move = false := by
  induction chains with
  | nil => intro st h; exact h
  | cons ci rest ih =>
    intro st h
    exact ih _ (phase3Chain_move st.1 ci h)

/-- The phase-1 walk, applied as `schedule_many` applies it: over the
sorted entry array with `ec` initialised to all-ones. -/
theorem phase1_master (bodies : List BodyData)
    (hcowns : ∀ b ∈ bodies, ∀ s ∈ b.slots, s.cown ≠ none) :
    ((((phase1 bodies).done.map cownProj :
          List ((Nat × Nat) × Option Nat)) : Multiset ((Nat × Nat) × Option Nat))
        = ↑(expectedFrom (none, 0) (List.insertionSort keyLE (buildEntries bodies))))
    ∧ (phase1 bodies).ec.length = bodies.length
    ∧ (∀ bi, (phase1 bodies).ec.getD bi 0
        = (List.replicate bodies.length 1).getD bi 0
          + ((expectedFrom (none, 0)
                (List.insertionSort keyLE (buildEntries bodies))).filter
              (fun p => p.1.1 == bi && p.2 == none)).length)
    ∧ transferSum (phase1 bodies).chains = totalMoves bodies
    ∧ (∀ p ∈ (phase1 bodies).done, p.2.move = false) := by
  have hmem : ∀ e ∈ List.insertionSort keyLE (buildEntries bodies),
      e.data.cown ≠ none ∧ e.bodyIdx < bodies.length := by
    intro e he
    have he' : e ∈ buildEntries bodies :=
      ((List.perm_insertionSort keyLE (buildEntries bodies)).mem_iff).mp he
    obtain ⟨⟨b, hb, hd⟩, h1, h2⟩ := buildEntriesAux_mem bodies 0 e he'
    exact ⟨hcowns b hb e.data hd, by simpa using h2⟩
  obtain ⟨h1, h2, h3, h4, h5⟩ := walk_master
    (List.insertionSort keyLE (buildEntries bodies))
    { done := [], oc := none, chains := [], ec := List.replicate bodies.length 1 }
    (fun e he => (hmem e he).1)
    (fun o ho => Option.noConfusion ho)
    (fun e he => by simpa using (hmem e he).2)
  refine ⟨?_, ?_, ?_, ?_, ?_⟩
  · exact h1
  · simpa using h2
  · exact h3
  · have hcnt : (List.insertionSort keyLE (buildEntries bodies)).countP
        (fun e => e.data.move) = totalMoves bodies := by
      rw [(List.perm_insertionSort keyLE (buildEntries bodies)).countP_eq]
      rw [show buildEntries bodies = buildEntriesAux 0 bodies from rfl]
      rw [buildEntriesAux_countP_data (fun s => s.move) bodies 0, totalMoves_eq]
    rw [← hcnt]
    simpa [transferSum, ocTransfer] using h4
  · exact h5 (fun p hp => absurd hp (List.not_mem_nil p))

theorem sorted_entries_facts (bodies : List BodyData)
    (hcowns : ∀ b ∈ bodies, ∀ s ∈ b.slots, s.cown ≠ none) :
    ∀ e ∈ List.insertionSort keyLE (buildEntries bodies),
      e.data.cown ≠ none ∧ e.bodyIdx < bodies.length := by
  intro e he
  have he' : e ∈ buildEntries bodies :=
    ((List.perm_insertionSort keyLE (buildEntries bodies)).mem_iff).mp he
  obtain ⟨⟨b, hb, hd⟩, h1, h2⟩ := buildEntriesAux_mem bodies 0 e he'
  exact ⟨hcowns b hb e.data hd, by simpa using h2⟩

/-- C1 (counterexample to the original wording): scheduling `when(a, a)`
— one behaviour with two writer slots on the same cown — nulls the
duplicate slot's cown pointer, but the `exec_count_down` of the
behaviour is `count + 1 = 3` before the call and still `3` after it:
the per-duplicate increment lands in the local resolve amount `ec[0]`
(which becomes 2), not in `exec_count_down`. -/
theorem c1_counterexample :
    exampleBodies.map (fun b => b.execCountDown) = [mkExecCountDown 2]
    ∧ ((phase1 exampleBodies).done.map cownProj) = [((0, 1), none), ((0, 0), some 1)]
    ∧ (phase1 exampleBodies).ec = [2]
    ∧ (scheduleMany exampleBodies exampleWorld).bodies.map (fun b => b.execCountDown)
        = [mkExecCountDown 2]
    ∧ mkExecCountDown 2 + 1 ≠ mkExecCountDown 2 :=
  ⟨rfl, rfl, rfl, rfl, by decide⟩

/-- C1 (amended): in `schedule_many`, for every behaviour that lists the
same cown more than once, all but one slot for that cown get their cown
pointer set to null, and the behaviour's entry `ec[bi]` in the local
resolve-amount array — initialised to 1 and passed to the final
`resolve` — is incremented by one per duplicate slot, so the behaviour
does not wait for itself; `exec_count_down` itself is not changed by the
deduplication. -/
theorem c1_dedup (bodies : List BodyData)
    (hcowns : ∀ b ∈ bodies, ∀ s ∈ b.slots, s.cown ≠ none)
    (bi c : Nat) (hbi : bi < bodies.length) :
    (0 < groupCount bodies bi c →
      (phase1 bodies).done.countP (fun p => p.1.1 == bi && p.2.cown == some c) = 1)
    ∧ (phase1 bodies).ec.getD bi 0
        = 1 + (phase1 bodies).done.countP (fun p => p.1.1 == bi && p.2.cown == none) := by
  obtain ⟨h1, h2, h3, h4, h5⟩ := phase1_master bodies hcowns
  have hperm := Multiset.coe_eq_coe.mp h1
  constructor
  · intro hg
    have hle : (phase1 bodies).done.countP (fun p => p.1.1 == bi && p.2.cown == some c)
        = ((phase1 bodies).done.map cownProj).countP
            (fun p => p.1.1 == bi && p.2 == some c) := by
      rw [List.countP_map]
      rfl
    rw [hle, hperm.countP_eq, expectedFrom_countP_keep,
      keptIn_sorted bi c _ (List.sorted_insertionSort keyLE (buildEntries bodies))
        (fun e he => (sorted_entries_facts bodies hcowns e he).1) (none, 0) (Or.inl rfl)]
    have hcnt : (List.insertionSort keyLE (buildEntries bodies)).countP
        (fun e => e.bodyIdx == bi && e.data.cown == some c) = groupCount bodies bi c := by
      rw [(List.perm_insertionSort keyLE (buildEntries bodies)).countP_eq]
      rw [show buildEntries bodies = buildEntriesAux 0 bodies from rfl]
      rw [buildEntriesAux_countP bi (fun s => s.cown == some c) bodies 0]
      rw [if_pos ⟨Nat.zero_le bi, by simpa using hbi⟩]
      rw [groupCount, slotsOf]
      exact List.countP_eq_length_filter _ _
    rw [hcnt, if_neg (by omega), if_neg (by simp)]
  · have hrep : (List.replicate bodies.length 1).getD bi 0 = 1 := by
      simp [List.getD_eq_getElem?_getD, List.getElem?_replicate, hbi]
    have hnull : ((expectedFrom (none, 0)
          (List.insertionSort keyLE (buildEntries bodies))).filter
            (fun p => p.1.1 == bi && p.2 == none)).length
        = (phase1 bodies).done.countP (fun p => p.1.1 == bi && p.2.cown == none) := by
      rw [← List.countP_eq_length_filter, ← hperm.countP_eq, List.countP_map]
      rfl
    rw [h3 bi, hrep, hnull]

theorem c1_dedup_witness :
    (0 < groupCount exampleBodies 0 1 →
      (phase1 exampleBodies).done.countP
        (fun p => p.1.1 == 0 && p.2.cown == some 1) = 1)
    ∧ (phase1 exampleBodies).ec.getD 0 0
        = 1 + (phase1 exampleBodies).done.countP
            (fun p => p.1.1 == 0 && p.2.cown == none) :=
  c1_dedup exampleBodies (by decide) 0 1 (by decide)

/-- C2: every MOVE flag in the request is taken exactly once (no slot
that `schedule_many` leaves behind still carries one), the transferred
references sum over the per-cown chains to the number of MOVE flags,
and each chain's phase-4 reconciliation balances: the transferred
references plus the `Cown::acquire` calls equal the references the
scheduler must retain plus the `Cown::release` calls.  So across the
call the caller's strong count on each cown drops by exactly its MOVE
slots. -/
theorem c2_move_transfer (bodies : List BodyData) (w : World)
    (hcowns : ∀ b ∈ bodies, ∀ s ∈ b.slots, s.cown ≠ none) :
    (∀ l ∈ (scheduleMany bodies w).ledger,
        l.transfer + l.acquires = l.required + l.releases)
    ∧ ((scheduleMany bodies w).ledger.map RcLedger.transfer).sum = totalMoves bodies
    ∧ (∀ p ∈ (scheduleMany bodies w).slots, p.2.move = false) := by
  obtain ⟨h1, h2, h3, h4, h5⟩ := phase1_master bodies hcowns
  have hled : (scheduleMany bodies w).ledger
      = ((phase2 w (phase1 bodies).done (phase1 bodies).chains).2.2).map phase4Ledger := by
    simp only [scheduleMany]
    rw [phase4_ledger_eq]
  refine ⟨?_, ?_, ?_⟩
  · intro l hl
    rw [hled] at hl
    obtain ⟨ci, _, hci⟩ := List.mem_map.mp hl
    rw [← hci]
    exact phase4Ledger_balance ci
  · rw [hled]
    have hmm : (((phase2 w (phase1 bodies).done (phase1 bodies).chains).2.2).map
          phase4Ledger).map RcLedger.transfer
        = ((phase2 w (phase1 bodies).done (phase1 bodies).chains).2.2).map
            (fun ci => ci.transfer) := by
      rw [List.map_map]
      rfl
    have hpair := phase2_keep w (phase1 bodies).done (phase1 bodies).chains
    have htr : ((phase2 w (phase1 bodies).done (phase1 bodies).chains).2.2).map
          (fun ci => ci.transfer)
        = ((phase1 bodies).chains).map (fun ci => ci.transfer) := by
      have := congrArg (List.map Prod.snd) hpair
      simpa [List.map_map, Function.comp] using this
    rw [hmm, htr, ← transferSum_map, h4]
  · intro p hp
    have hmove2 : ∀ q ∈ (phase2 w (phase1 bodies).done (phase1 bodies).chains).2.1,
        q.2.move = false :=
      phase2_fold_move (phase1 bodies).chains (w, (phase1 bodies).done, []) h5
    have hmove3 : ∀ q ∈ (phase3
          (phase2 w (phase1 bodies).done (phase1 bodies).chains).2.1
          (phase2 w (phase1 bodies).done (phase1 bodies).chains).2.2).1,
        q.2.move = false :=
      phase3_fold_move (phase2 w (phase1 bodies).done (phase1 bodies).chains).2.2
        ((phase2 w (phase1 bodies).done (phase1 bodies).chains).2.1, []) hmove2
    exact hmove3 p hp

theorem c2_move_transfer_witness :
    (∀ l ∈ (scheduleMany exampleBodies exampleWorld).ledger,
        l.transfer + l.acquires = l.required + l.releases)
    ∧ ((scheduleMany exampleBodies exampleWorld).ledger.map RcLedger.transfer).sum
        = totalMoves exampleBodies
    ∧ (∀ p ∈ (scheduleMany exampleBodies exampleWorld).slots, p.2.move = false) :=
  c2_move_transfer exampleBodies exampleWorld (by decide)

end Verona
